import Mathlib

/-!
Verification of the warctools archive record model and streaming
parser/writer engine (`hanzo/warctools`): a shallow embedding of
`record.py`, `stream.py`, `warc.py` and `mixed.py`, with theorems about
the bounded stream reader, the WARC parser/writer round trip, validation,
header accessors, and the gzip-per-record end-of-file behaviour.

Byte strings are modelled as `List Nat` (each element a byte value);
streams are modelled by the not-yet-consumed bytes plus the number of
bytes consumed so far (the file position).
-/

namespace Warctools

/-- Byte strings (Python `bytes`) are lists of byte values. -/
abbrev Bytes := List Nat

/-- Converts an ASCII string literal to its byte list. -/
def bs (s : String) : Bytes := s.data.map Char.toNat

/-- ASCII whitespace, the byte class matched by the regex class `\s` and
stripped by Python `bytes.strip()`: space, `\t`, `\n`, `\v`, `\f`, `\r`. -/
def isSpaceByte (b : Nat) : Bool :=
  b = 32 || b = 9 || b = 10 || b = 11 || b = 12 || b = 13

/-- ASCII lower-casing of one byte, as `bytes.lower()` does per byte. -/
def toLowerByte (b : Nat) : Nat :=
  if 65 ≤ b ∧ b ≤ 90 then b + 32 else b

/-- Python `bytes.lower()`. -/
def lowerBytes (b : Bytes) : Bytes := b.map toLowerByte

/-- Python `bytes.strip()`: removes leading and trailing ASCII whitespace. -/
def stripBytes (b : Bytes) : Bytes :=
  ((b.dropWhile isSpaceByte).reverse.dropWhile isSpaceByte).reverse

/-- Decimal digit test. -/
def isDigitByte (b : Nat) : Bool := 48 ≤ b && b ≤ 57

/-- Value of a string of decimal digit bytes, most significant first. -/
def decValue (ds : Bytes) : Nat := ds.foldl (fun a d => a * 10 + (d - 48)) 0

/-- Fuel-driven digit expansion; any `fuel > n` gives the digits of `n`. -/
def natToDecAux : Nat → Nat → Bytes
  | 0, _ => []
  | fuel + 1, n =>
    if n < 10 then [n + 48]
    else natToDecAux fuel (n / 10) ++ [n % 10 + 48]

/-- Decimal digits of `n`, most significant first; models Python
`str(n).encode("ascii")` for a natural number `n`. -/
def natToDec (n : Nat) : Bytes := natToDecAux (n + 1) n

/-- Python `int()` applied to a byte string: strips ASCII whitespace,
accepts an optional single sign followed by one or more decimal digits,
and returns `none` where CPython raises `ValueError`.  (CPython
additionally tolerates underscore digit separators, which never occur in
the byte strings this development manipulates.) -/
def pyInt (b : Bytes) : Option Int :=
  let s := stripBytes b
  let core : Bytes → Option Nat := fun ds =>
    if ds ≠ [] ∧ ds.all isDigitByte then some (decValue ds) else none
  match s with
  | [] => none
  | c :: rest =>
    if c = 43 then (core rest).map Int.ofNat
    else if c = 45 then (core rest).map (fun n => -(n : Int))
    else (core (c :: rest)).map Int.ofNat

/-! ## Raw file handles

`PyFile` models a binary file object opened for reading: `rest` is the
byte sequence after the current position and `told` the current position
(`fh.tell()`). -/

structure PyFile where
  rest : Bytes
  told : Nat
  deriving Repr, DecidableEq

deriving instance DecidableEq for Except

/-- Makes a file positioned at offset 0 over the given bytes. -/
def mkFile (data : Bytes) : PyFile := ⟨data, 0⟩

/-- Python `fh.read(count)`: `none` or a negative count reads to EOF,
otherwise at most `count` bytes are returned. -/
def PyFile.read (f : PyFile) (count : Option Int) : Bytes × PyFile :=
  let r : Bytes :=
    match count with
    | none => f.rest
    | some c => if c < 0 then f.rest else f.rest.take c.toNat
  (r, ⟨f.rest.drop r.length, f.told + r.length⟩)

/-- Cuts one line (terminated by `\n`, inclusive) off the front of a byte
sequence, reading at most `lim` bytes when `lim` is a natural bound. -/
def takeLineLim : Bytes → Option Nat → Bytes
  | _, some 0 => []
  | [], _ => []
  | b :: rest, lim =>
    if b = 10 then [10]
    else b :: takeLineLim rest (lim.map (· - 1))

/-- Python `fh.readline(size)`: reads up to and including the next `\n`;
`none` or a negative size is unbounded, size 0 returns the empty string. -/
def PyFile.readline (f : PyFile) (size : Option Int) : Bytes × PyFile :=
  let lim : Option Nat :=
    match size with
    | none => none
    | some c => if c < 0 then none else some c.toNat
  let line := takeLineLim f.rest lim
  (line, ⟨f.rest.drop line.length, f.told + line.length⟩)

theorem takeLineLim_length_le (rest : Bytes) (lim : Option Nat) :
    (takeLineLim rest lim).length ≤ rest.length := by
  induction rest generalizing lim with
  | nil => cases lim with
    | none => simp [takeLineLim]
    | some n => cases n <;> simp [takeLineLim]
  | cons b tl ih =>
    cases lim with
    | none =>
      by_cases h : b = 10 <;> simp [takeLineLim, h]
      exact ih none
    | some n =>
      cases n with
      | zero => simp [takeLineLim]
      | succ m =>
        by_cases h : b = 10 <;> simp [takeLineLim, h]
        exact ih (some m)

theorem readline_rest_length (f : PyFile) (size : Option Int) :
    ((f.readline size).2).rest.length + ((f.readline size).1).length
      = f.rest.length := by
  simp only [PyFile.readline, List.length_drop]
  have := takeLineLim_length_le f.rest
    (match size with
      | none => none
      | some c => if c < 0 then none else some c.toNat)
  omega

/-! ## The bounded stream reader (`stream.py`, class `RecordStream`)

A `RecordStream` couples a raw file handle with the mutable counter
`bytes_to_eoc` ("number of bytes until the end of the record's content,
if known"; `none` means unset/unbounded). -/

structure RecordStream where
  fh : PyFile
  bytes_to_eoc : Option Int
  deriving Repr, DecidableEq

/-- Constructs a stream over the given bytes; `bytes_to_eoc` starts unset
as in `RecordStream.__init__`. -/
def mkStream (data : Bytes) : RecordStream := ⟨mkFile data, none⟩

/-- Model of `RecordStream._read`: raw read that decrements
`bytes_to_eoc` by the number of bytes actually read. -/
def RecordStream.rawRead (s : RecordStream) (count : Option Int) :
    Bytes × RecordStream :=
  let r := s.fh.read count
  (r.1, ⟨r.2, s.bytes_to_eoc.map (fun e => e - r.1.length)⟩)

/-- Model of `RecordStream.read`: safe read for reading content, which
never reads past `bytes_to_eoc` when it is set. -/
def RecordStream.read (s : RecordStream) (count : Option Int) :
    Bytes × RecordStream :=
  let read_size : Option Int :=
    match s.bytes_to_eoc, count with
    | some e, some c => some (min c e)
    | some e, none => some e
    | none, some c => some c
    | none, none => none
  s.rawRead read_size

/-- Model of `RecordStream.readline`: safe readline for reading content,
which never reads past `bytes_to_eoc` when it is set, and decrements it
by the number of bytes returned. -/
def RecordStream.readline (s : RecordStream) (maxlen : Option Int) :
    Bytes × RecordStream :=
  let lim : Option Int :=
    match s.bytes_to_eoc, maxlen with
    | some e, some m => some (min m e)
    | some e, none => some e
    | none, some m => some m
    | none, none => none
  let r := s.fh.readline lim
  (r.1, ⟨r.2, s.bytes_to_eoc.map (fun e => e - r.1.length)⟩)

/-- Chunk size used by `_skip_to_eoc`. -/
def CHUNK_SIZE : Int := 8192

/-- Loop body of `RecordStream._skip_to_eoc`: while `bytes_to_eoc > 0`,
read `min(CHUNK_SIZE, bytes_to_eoc)` bytes through `_read` and fail hard
when fewer bytes come back than requested.  The loop runs on explicit
fuel; every iteration shrinks the counter by at least one, so the
`e.toNat + 1` budget supplied by `skipToEoc` can never run out (the
out-of-fuel clause coincides with the loop-exit result). -/
def skipLoopF : Nat → PyFile → Int → Except String (PyFile × Int)
  | 0, f, e => .ok (f, e)
  | fuel + 1, f, e =>
    if 0 < e then
      let read_size := min CHUNK_SIZE e
      let r := f.read (some read_size)
      if (r.1.length : Int) < read_size then
        .error "expected bytes but read fewer"
      else
        skipLoopF fuel r.2 (e - r.1.length)
    else
      .ok (f, e)

/-- Model of `RecordStream._skip_to_eoc`: drains `bytes_to_eoc` bytes,
raising when the counter is unset or the source is short. -/
def RecordStream.skipToEoc (s : RecordStream) : Except String RecordStream :=
  match s.bytes_to_eoc with
  | none => .error "bytes_to_eoc is unset, cannot skip to end"
  | some e =>
    (skipLoopF (e.toNat + 1) s.fh e).map (fun r => ⟨r.1, some r.2⟩)

theorem rs_readline_rest (s : RecordStream) (m : Option Int) :
    ((s.readline m).2).fh.rest.length + ((s.readline m).1).length
      = s.fh.rest.length := by
  simp only [RecordStream.readline]
  exact readline_rest_length s.fh _

/-! ## The record model (`record.py` / `warc.py`, class `WarcRecord`)

Diagnostic tuples are message text plus byte-string arguments; a record
holds the declared version, the ordered header list, the lazily resolved
content pair (`_content`: content type and buffer, each possibly absent)
and the accumulated error list. -/

structure PError where
  msg : String
  args : List Bytes
  deriving Repr, DecidableEq

structure WRecord where
  version : Bytes
  headers : List (Bytes × Bytes)
  content : Option (Option Bytes × Option Bytes)
  errors : List PError
  deriving Repr, DecidableEq

/-! Header-name constants stamped onto `WarcRecord` by the
`ArchiveRecord.HEADERS` decorator, and the record-type vocabulary. -/

def wDATE : Bytes := bs "WARC-Date"
def wTYPE : Bytes := bs "WARC-Type"
def wID : Bytes := bs "WARC-Record-ID"
def wCONTENT_LENGTH : Bytes := bs "Content-Length"
def wCONTENT_TYPE : Bytes := bs "Content-Type"
def wURL : Bytes := bs "WARC-Target-URI"
def wPROFILE : Bytes := bs "WARC-Profile"

def wWARCINFO : Bytes := bs "warcinfo"
def wRESPONSE : Bytes := bs "response"
def wRESOURCE : Bytes := bs "resource"
def wREQUEST : Bytes := bs "request"
def wMETADATA : Bytes := bs "metadata"
def wREVISIT : Bytes := bs "revisit"
def wCONVERSION : Bytes := bs "conversion"
def wCONTINUATION : Bytes := bs "continuation"

/-- Known version strings accepted without a diagnostic
(`WarcParser.KNOWN_VERSIONS`). -/
def KNOWN_VERSIONS : List Bytes := [bs "1.0", bs "1.1", bs "0.17", bs "0.18"]

/-- Version-line constants of `WarcRecord`. -/
def VERSION10 : Bytes := bs "WARC/1.0"
def VERSION11 : Bytes := bs "WARC/1.1"
def VERSION18 : Bytes := bs "WARC/0.18"
def VERSION17 : Bytes := bs "WARC/0.17"

/-- Case-insensitive byte-string comparison, as the header-name regexes
compiled with `IGNORECASE` perform. -/
def ciEq (a b : Bytes) : Bool := lowerBytes a = lowerBytes b

/-- Model of `ArchiveRecord.get_header` on a header list: value of the
first pair whose name matches case-insensitively. -/
def getHeaderIn (headers : List (Bytes × Bytes)) (name : Bytes) : Option Bytes :=
  match headers with
  | [] => none
  | (k, v) :: rest =>
    if lowerBytes name = lowerBytes k then some v else getHeaderIn rest name

def WRecord.get_header (r : WRecord) (name : Bytes) : Option Bytes :=
  getHeaderIn r.headers name

/-- Model of `ArchiveRecord.set_header`: drops the pairs whose name is
byte-for-byte equal to `name` and appends the new pair at the end. -/
def WRecord.set_header (r : WRecord) (name value : Bytes) : WRecord :=
  { r with headers := (r.headers.filter (fun kv => kv.1 ≠ name)) ++ [(name, value)] }

/-- Derived accessor `type` (`get_header(TYPE)`). -/
def WRecord.typeH (r : WRecord) : Option Bytes := r.get_header wTYPE

/-- Derived accessor `date` (`get_header(DATE)`). -/
def WRecord.dateH (r : WRecord) : Option Bytes := r.get_header wDATE

/-- Derived accessor `url` (`get_header(URL)`). -/
def WRecord.urlH (r : WRecord) : Option Bytes := r.get_header wURL

/-- Model of the `ArchiveRecord.content` property for a record whose
`content_file` is the given stream: when `_content` is unset, the content
type comes from the `Content-Type` header and the buffer from reading
`content_file` to the end of content, after which `content_file` is
dropped; when `_content` is already set it is returned unchanged. -/
def WRecord.resolveContent (r : WRecord) (s : RecordStream) :
    (Option Bytes × Option Bytes) × WRecord × RecordStream :=
  match r.content with
  | some c => (c, r, s)
  | none =>
    let ct := r.get_header wCONTENT_TYPE
    let rr := s.read none
    let c : Option Bytes × Option Bytes := (ct, some rr.1)
    (c, { r with content := some c }, rr.2)

/-- Model of the `ArchiveRecord.content_length` property: the integer
value of the `Content-Length` header when content is unresolved and the
header is present (with `none` standing for the `ValueError` that
`int()` raises on a non-numeric value), and otherwise the length of the
resolved content buffer (resolving it first if needed; `none` stands for
`len(None)` raising if the supplied buffer was `None`). -/
def WRecord.content_length (r : WRecord) (s : RecordStream) :
    Option Int × WRecord × RecordStream :=
  match r.content, r.get_header wCONTENT_LENGTH with
  | none, some v => (pyInt v, r, s)
  | _, _ =>
    let rr := r.resolveContent s
    match rr.1.2 with
    | some b => (some (b.length : Int), rr.2.1, rr.2.2)
    | none => (none, rr.2.1, rr.2.2)

/-! ## UTF-8 decoding

`validate` inspects header values through
`value.decode("utf-8", errors="replace")`; the model decodes a byte
string to a list of code points, emitting U+FFFD (65533) for each
malformed byte.  (CPython's replacement policy consumes a maximal valid
subpart per replacement character; the model consumes one byte, which
agrees on every byte string this development reasons about.) -/

def utf8Cont (b : Nat) : Bool := 128 ≤ b && b ≤ 191

/-- Fuel-driven decoder core; a budget of the input length suffices since
every step consumes at least one byte. -/
def utf8CpF : Nat → Bytes → List Nat
  | 0, _ => []
  | _, [] => []
  | fuel + 1, b :: rest =>
    if b < 128 then b :: utf8CpF fuel rest
    else if 194 ≤ b && b ≤ 223 then
      match rest with
      | c :: r2 =>
        if utf8Cont c then ((b - 192) * 64 + (c - 128)) :: utf8CpF fuel r2
        else 65533 :: utf8CpF fuel (c :: r2)
      | [] => [65533]
    else if 224 ≤ b && b ≤ 239 then
      match rest with
      | c :: d :: r2 =>
        if (if b = 224 then 160 ≤ c && c ≤ 191
            else if b = 237 then 128 ≤ c && c ≤ 159
            else utf8Cont c) && utf8Cont d then
          ((b - 224) * 4096 + (c - 128) * 64 + (d - 128)) :: utf8CpF fuel r2
        else 65533 :: utf8CpF fuel (c :: d :: r2)
      | [c] => 65533 :: utf8CpF fuel [c]
      | [] => [65533]
    else if 240 ≤ b && b ≤ 244 then
      match rest with
      | c :: d :: e :: r2 =>
        if (if b = 240 then 144 ≤ c && c ≤ 191
            else if b = 244 then 128 ≤ c && c ≤ 143
            else utf8Cont c) && utf8Cont d && utf8Cont e then
          ((b - 240) * 262144 + (c - 128) * 4096 + (d - 128) * 64 + (e - 128))
            :: utf8CpF fuel r2
        else 65533 :: utf8CpF fuel (c :: d :: e :: r2)
      | [c, d] => 65533 :: utf8CpF fuel [c, d]
      | [c] => 65533 :: utf8CpF fuel [c]
      | [] => [65533]
    else 65533 :: utf8CpF fuel rest

/-- Decodes a byte string to the code points of
`value.decode("utf-8", errors="replace")`. -/
def utf8Cp (b : Bytes) : List Nat := utf8CpF b.length b

/-! ## Validation (`WarcRecord.validate`) -/

/-- Vocabulary of known record types checked by `validate`. -/
def validTypes : List Bytes :=
  [wWARCINFO, wRESPONSE, wRESOURCE, wREQUEST, wMETADATA, wREVISIT,
   wCONVERSION, wCONTINUATION]

/-- Per-field shape checks of `validate` for a present `WARC-Record-ID`:
angle-bracket form on the decoded string, and no space or tab bytes. -/
def idCheckErrors (record_id : Bytes) : List PError :=
  let decoded := utf8Cp record_id
  (if decoded.head? = some 60 ∧ decoded.getLast? = some 62 then []
   else [⟨"invalid WARC-Record-ID format", [record_id, bs "must be <uri>"]⟩]) ++
  (if record_id.contains 32 ∨ record_id.contains 9 then
    [⟨"WARC-Record-ID contains whitespace", [record_id]⟩]
   else [])

/-- Per-field shape check of `validate` for a present `WARC-Date`:
accepts a decoded string ending in `Z`, or containing `T`. -/
def dateCheckErrors (warc_date : Bytes) : List PError :=
  let decoded := utf8Cp warc_date
  if decoded.getLast? = some 90 then []
  else if decoded.contains 84 then []
  else [⟨"WARC-Date format may be invalid", [warc_date, bs "should be W3CDTF"]⟩]

/-- Per-field shape check of `validate` for a present `WARC-Type`. -/
def typeCheckErrors (warc_type : Bytes) : List PError :=
  if validTypes.contains warc_type then []
  else [⟨"unknown WARC-Type", [warc_type, bs "will be skipped per spec"]⟩]

/-- Per-field shape check of `validate` for a present `Content-Length`:
`int()` must succeed and give a non-negative value. -/
def clCheckErrors (content_length : Bytes) : List PError :=
  match pyInt content_length with
  | some v =>
    if v < 0 then [⟨"Content-Length must be non-negative", [content_length]⟩]
    else []
  | none => [⟨"Content-Length must be numeric", [content_length]⟩]

/-- Model of `WarcRecord.validate`: starts from the record's accumulated
errors, then checks presence (a `None` or empty value counts as missing)
and shape of the four mandatory fields, and requires `WARC-Profile` on
`revisit` records. -/
def WRecord.validate (r : WRecord) : List PError :=
  r.errors ++
  (match r.get_header wID with
   | none => [⟨"missing mandatory field", [bs "WARC-Record-ID"]⟩]
   | some i =>
     if i = [] then [⟨"missing mandatory field", [bs "WARC-Record-ID"]⟩]
     else idCheckErrors i) ++
  (match r.get_header wDATE with
   | none => [⟨"missing mandatory field", [bs "WARC-Date"]⟩]
   | some d =>
     if d = [] then [⟨"missing mandatory field", [bs "WARC-Date"]⟩]
     else dateCheckErrors d) ++
  (match r.get_header wTYPE with
   | none => [⟨"missing mandatory field", [bs "WARC-Type"]⟩]
   | some t =>
     if t = [] then [⟨"missing mandatory field", [bs "WARC-Type"]⟩]
     else typeCheckErrors t) ++
  (match r.get_header wCONTENT_LENGTH with
   | none => [⟨"missing mandatory field", [bs "Content-Length"]⟩]
   | some c =>
     if c = [] then [⟨"missing mandatory field", [bs "Content-Length"]⟩]
     else clCheckErrors c) ++
  (if r.get_header wTYPE = some wREVISIT then
    match r.get_header wPROFILE with
    | none => [⟨"WARC-Profile is mandatory for revisit records", []⟩]
    | some p =>
      if p = [] then [⟨"WARC-Profile is mandatory for revisit records", []⟩]
      else []
   else [])

/-! ## Line-pattern models (`warc.py` regexes)

Every line these patterns are applied to is a `readline` result, so the
byte 10 occurs at most once and only as the final byte; the models below
are faithful on all such lines. -/

/-- Trailing `(?P<nl>\r\n|\r|\n)\Z` group shared by the line regexes:
splits a line into its body and its line end, preferring `\r\n`. -/
def splitNl (line : Bytes) : Option (Bytes × Bytes) :=
  match line.reverse with
  | 10 :: 13 :: body => some (body.reverse, [13, 10])
  | 10 :: body => some (body.reverse, [10])
  | 13 :: body => some (body.reverse, [13])
  | _ => none

/-- Groups of `version_rx`
(`^(?P<prefix>.*?)(?P<version>\s*WARC/(?P<number>.*?))(?P<nl>...)\Z`,
case-insensitive). -/
structure VersionGroups where
  preG : Bytes
  versionG : Bytes
  numberG : Bytes
  nlG : Bytes
  deriving Repr, DecidableEq

/-- Tests whether `\s*WARC/` (case-insensitively) matches here. -/
def versionHere (t : Bytes) : Bool :=
  lowerBytes ((t.dropWhile isSpaceByte).take 5) = bs "warc/"

/-- Leftmost split of the body into the non-greedy prefix group and the
version group: the shortest prefix after which `\s*WARC/` matches. -/
def versionSearch (pre t : Bytes) : Option (Bytes × Bytes) :=
  if versionHere t then some (pre, t)
  else
    match t with
    | [] => none
    | b :: rest => versionSearch (pre ++ [b]) rest

/-- Model of `version_rx.match(line)`. -/
def versionMatch (line : Bytes) : Option VersionGroups :=
  match splitNl line with
  | none => none
  | some (body, nl) =>
    match versionSearch [] body with
    | none => none
    | some (pre, vg) =>
      some ⟨pre, vg, (vg.dropWhile isSpaceByte).drop 5, nl⟩

/-- Splits a header body at its first colon byte. -/
def findColonSplit : Bytes → Option (Bytes × Bytes)
  | [] => none
  | b :: rest =>
    if b = 58 then some ([], rest)
    else (findColonSplit rest).map (fun p => (b :: p.1, p.2))

/-- Groups of `header_rx` (`^(?P<name>.*?):\s?(?P<value>.*?)(?P<nl>...)\Z`). -/
structure HeaderGroups where
  nameG : Bytes
  valueG : Bytes
  nlG : Bytes
  deriving Repr, DecidableEq

/-- Model of `header_rx.match(line)`: name up to the first colon, one
optional whitespace byte skipped, rest of the body as value. -/
def headerMatch (line : Bytes) : Option HeaderGroups :=
  match splitNl line with
  | none => none
  | some (body, nl) =>
    match findColonSplit body with
    | none => none
    | some (name, rest) =>
      let value : Bytes :=
        match rest with
        | c :: r2 => if isSpaceByte c then r2 else rest
        | [] => []
      some ⟨name, value, nl⟩

/-- Model of `value_rx.match(line)` (`^\s+(?P<value>.+?)(?P<nl>...)\Z`,
continuation lines): needs at least one leading whitespace byte and a
non-empty value; on an all-whitespace body of length at least two,
backtracking yields the last whitespace byte as the value. -/
def valueMatch (line : Bytes) : Option (Bytes × Bytes) :=
  match splitNl line with
  | none => none
  | some (body, nl) =>
    let w := body.takeWhile isSpaceByte
    let r := body.dropWhile isSpaceByte
    if w = [] then none
    else if r ≠ [] then some (r, nl)
    else
      match w.getLast? with
      | some c => if 2 ≤ w.length then some ([c], nl) else none
      | none => none

/-- Model of `nl_rx.match(line)` (`^(?P<nl>\r\n|\r|\n\Z)`), the
blank-line test: any line starting with `\r`, or exactly `\n`. -/
def nlMatch (line : Bytes) : Bool :=
  line.head? = some 13 || line = [10]

/-! ## The WARC parser (`WarcParser.parse`)

The `parse` loops read lines from the stream only through
`stream.readline()`; they run on explicit fuel so that the embedding
stays executable.  Each loop iteration consumes at least one stream byte
per line held, so the budget supplied by `warcParse` never runs out. -/

/-- Number of ignored lines after which the version hunt gives up
(module constant `bad_lines`). -/
def bad_lines : Nat := 5

/-- Outcome of the version-hunt loop at the top of `WarcParser.parse`. -/
inductive SeekOut where
  | found (g : VersionGroups) (offset : Option Nat) (errors : List PError)
  | abort (errors : List PError) (offset : Option Nat)
  | atEof (errors : List PError) (offset : Option Nat)
  deriving Repr, DecidableEq

/-- Version-hunt loop of `WarcParser.parse`: skip lines until one matches
`version_rx`, recording an "ignored line" diagnostic for each non-blank
miss and giving up after more than `bad_lines` of them. -/
def seekVersion : Nat → RecordStream → Bytes → Option Nat → List PError →
    SeekOut × RecordStream
  | 0, s, _, offset, errors => (.atEof errors offset, s)
  | fuel + 1, s, line, offset, errors =>
    if line = [] then (.atEof errors offset, s)
    else
      match versionMatch line with
      | some g => (.found g (offset.map (· + g.preG.length)) errors, s)
      | none =>
        let offset := offset.map (· + line.length)
        if nlMatch line then
          let r := s.readline none
          seekVersion fuel r.2 r.1 offset errors
        else
          let errors := errors ++ [⟨"ignored line", [line]⟩]
          if bad_lines < errors.length then
            (.abort (errors ++ [⟨"too many errors, giving up hope", []⟩]) offset, s)
          else
            let r := s.readline none
            seekVersion fuel r.2 r.1 offset errors

/-- Python `b" ".join(values)`. -/
def joinSpace (vs : List Bytes) : Bytes := List.intercalate [32] vs

/-- Continuation-line loop of the header reader: folds `value_rx` lines
into the value parts, returning the parts, the first non-continuation
line, the accumulated record errors and the stream. -/
def contLoop : Nat → RecordStream → Bytes → List Bytes → List PError →
    List Bytes × Bytes × List PError × RecordStream
  | 0, s, line, vals, errs => (vals, line, errs, s)
  | fuel + 1, s, line, vals, errs =>
    match valueMatch line with
    | none => (vals, line, errs, s)
    | some (v, nl) =>
      let errs :=
        if nl = [13, 10] then errs
        else errs ++ [⟨"incorrect newline in follow header", [line, nl]⟩]
      let vals := vals ++ [stripBytes v]
      let r := s.readline none
      contLoop fuel r.2 r.1 vals errs

/-- Header loop of `WarcParser.parse`: reads `name ":" value` lines with
their continuations until a blank line, tracking the parsed
content length from the last `Content-Length` header.  Returns `none`
where the source would loop forever (a line matching neither `nl_rx` nor
`header_rx` is never consumed and never re-read). -/
def headerLoop : Nat → RecordStream → Bytes → List (Bytes × Bytes) → Int →
    List PError → Option (List (Bytes × Bytes) × Int × List PError × RecordStream)
  | 0, _, _, _, _, _ => none
  | fuel + 1, s, line, hdrs, clen, errs =>
    if line = [] ∨ nlMatch line then some (hdrs, clen, errs, s)
    else
      match headerMatch line with
      | none => none
      | some g =>
        let errs :=
          if g.nlG = [13, 10] then errs
          else errs ++ [⟨"incorrect newline in header", [g.nlG]⟩]
        let name := stripBytes g.nameG
        let r := s.readline none
        let c := contLoop fuel r.2 r.1 [stripBytes g.valueG] errs
        let value := joinSpace c.1
        let hdrs := hdrs ++ [(name, value)]
        if ciEq name wCONTENT_TYPE then
          let errs2 :=
            if value ≠ [] then c.2.2.1
            else c.2.2.1 ++ [⟨"invalid header", [name, value]⟩]
          headerLoop fuel c.2.2.2 c.2.1 hdrs clen errs2
        else if ciEq name wCONTENT_LENGTH then
          match pyInt value with
          | some n => headerLoop fuel c.2.2.2 c.2.1 hdrs n c.2.2.1
          | none =>
            headerLoop fuel c.2.2.2 c.2.1 hdrs clen
              (c.2.2.1 ++ [⟨"invalid header", [name, value]⟩])
        else headerLoop fuel c.2.2.2 c.2.1 hdrs clen c.2.2.1

/-- Result triple of `parse(stream, offset, line)`. -/
structure ParseResult where
  record : Option WRecord
  errors : List PError
  offset : Option Nat
  deriving Repr, DecidableEq

/-- Reads the first line when none was passed in
(`if line is None: line = stream.readline()`). -/
def firstLine (s : RecordStream) (lineArg : Option Bytes) :
    Bytes × RecordStream :=
  match lineArg with
  | none => s.readline none
  | some l => (l, s)

/-- Fuel budget that the parse loops can never exhaust: more than every
byte still on the stream plus the line already in hand. -/
def parseFuel (s : RecordStream) (line : Bytes) : Nat :=
  s.fh.rest.length + line.length + 1

/-- Model of `WarcParser.parse`: hunt for the version line, check its
shape, read the header block, then bind the record's content: the record
gets the stream as its `content_file` with `bytes_to_eoc` set to the
parsed content length, and the returned error list is empty whenever a
record is returned.  A `none` result models the source diverging in the
header loop. -/
def warcParse (s : RecordStream) (offset : Option Nat)
    (lineArg : Option Bytes) : Option (ParseResult × RecordStream) :=
  let st := firstLine s lineArg
  match seekVersion (parseFuel st.2 st.1) st.2 st.1 offset [] with
  | (.abort errs off, s1) => some (⟨none, errs, off⟩, s1)
  | (.atEof errs off, s1) => some (⟨none, errs, off⟩, s1)
  | (.found g off errs, s1) =>
    let recErrs := errs
    let recErrs :=
      if g.nlG = [13, 10] then recErrs
      else recErrs ++ [⟨"incorrect newline in version", [g.nlG]⟩]
    let recErrs :=
      if KNOWN_VERSIONS.contains g.numberG then recErrs
      else recErrs ++ [⟨"version field is not known", [g.numberG]⟩]
    let recErrs :=
      if g.preG = [] then recErrs
      else recErrs ++ [⟨"bad prefix on WARC version header", [g.preG]⟩]
    let r := s1.readline none
    match headerLoop (parseFuel r.2 r.1) r.2 r.1 [] 0 recErrs with
    | none => none
    | some (hdrs, clen, recErrs2, s2) =>
      some (⟨some ⟨g.versionG, hdrs, none, recErrs2⟩, [], off⟩,
        { s2 with bytes_to_eoc := some clen })

/-! ## The WARC writer (`WarcRecord._write_to`) -/

/-- The canonical record newline `\r\n` (default of `write_to`). -/
def nlCRLF : Bytes := [13, 10]

/-- Model of `WarcRecord._write_to` through `write_to` with the default
CRLF newline and no gzip wrapping, for a record whose content is
resolved (`content_file is None`; the `content_file` streaming branch is
outside this model, so an unresolved record maps to `none`): the version
line, every header whose name is not byte-for-byte `Content-Type` or
`Content-Length`, a `Content-Type` header when the content type is
truthy, a `Content-Length` header computed from the buffer, the blank
separator line, the content block, and the two-newline record trailer. -/
def warcWriteTo (r : WRecord) : Option Bytes :=
  match r.content with
  | none => none
  | some (ct, cb) =>
    let headerBytes : Bytes :=
      ((r.headers.filter
          (fun kv => kv.1 ≠ wCONTENT_TYPE ∧ kv.1 ≠ wCONTENT_LENGTH)).map
        (fun kv => kv.1 ++ [58, 32] ++ kv.2 ++ nlCRLF)).flatten
    let buf := cb.getD []
    let ctLine : Bytes :=
      match ct with
      | some t => if t = [] then [] else wCONTENT_TYPE ++ [58, 32] ++ t ++ nlCRLF
      | none => []
    let clLine : Bytes :=
      wCONTENT_LENGTH ++ [58, 32] ++ natToDec buf.length ++ nlCRLF
    some (r.version ++ nlCRLF ++ headerBytes ++ ctLine ++ clLine ++ nlCRLF
      ++ buf ++ nlCRLF ++ nlCRLF)

/-! ## The mixed dispatch parser (`mixed.py`, `MixedParser.parse`)

The ARC side of the dispatcher (`ArcParser`, from `arc.py`) is not part
of the sources; the dispatcher is therefore parametric in the routed-to
ARC parse function, while the WARC side is the `warcParse` model bound
by `MixedParser.__init__`. -/

/-- Type of a bound `parse` method as the dispatcher calls it. -/
abbrev ParseFun :=
  RecordStream → Option Nat → Option Bytes → Option (ParseResult × RecordStream)

/-- Dispatch loop of `MixedParser.parse`: skip lines that are exactly a
bare line end, route a line starting with the literal `WARC` to the WARC
parser and any other non-blank line to the ARC parser, passing the line
along. -/
def mixedLoop (arcP : ParseFun) : Nat → RecordStream → Bytes → Option Nat →
    Option (ParseResult × RecordStream)
  | 0, s, _, offset => some (⟨none, [], offset⟩, s)
  | fuel + 1, s, line, offset =>
    if line = [] then some (⟨none, [], offset⟩, s)
    else if line.take 4 = bs "WARC" then warcParse s offset (some line)
    else if line ≠ [10] ∧ line ≠ [13, 10] ∧ line ≠ [13] then
      arcP s offset (some line)
    else
      let r := s.readline none
      mixedLoop arcP fuel r.2 r.1 offset

/-- Model of `MixedParser.parse`. -/
def mixedParse (arcP : ParseFun) (s : RecordStream) (offset : Option Nat)
    (lineArg : Option Bytes) : Option (ParseResult × RecordStream) :=
  let st := firstLine s lineArg
  mixedLoop arcP (parseFuel st.2 st.1) st.2 st.1 offset

/-- Modelled from the spec (§4.3 dispatch contract, for stating the
routing theorem): skips blank lines, returning the first substantive
line (empty at EOF) and the stream positioned immediately after it. -/
def skipBlankMixed : Nat → RecordStream → Bytes → Bytes × RecordStream
  | 0, s, line => (line, s)
  | fuel + 1, s, line =>
    if line = [] then (line, s)
    else if line = [10] ∨ line = [13, 10] ∨ line = [13] then
      let r := s.readline none
      skipBlankMixed fuel r.2 r.1
    else (line, s)

/-! ## Record iteration (`_read_record` / `read_records`)

The record-terminator test `re.match(rb"^[\r\n]+$", line)` used by the
`_read_record` implementations. -/

/-- A line consisting only of CR/LF bytes, and at least one of them. -/
def isTerminatorLine (line : Bytes) : Bool :=
  !line.isEmpty && line.all (fun b => b = 13 || b = 10)

/-- Model of `GeeZipFile`, the `gzip.GzipFile` subclass that remembers
`member_offset`, the raw-file position captured by `_read_gzip_header`
at the start of the current gzip member.  The stdlib decompressor is
external code, so its decompressed view is abstracted to the remaining
decompressed bytes; `member_offset` holds whatever the last member
boundary recorded (boundary crossings themselves happen inside the
stdlib machinery and are not modelled — the claims under proof only
exercise positions away from a boundary and clean end-of-file, where the
field is untouched). -/
structure GeeZipFile where
  rest : Bytes
  member_offset : Nat
  deriving Repr, DecidableEq

/-- Python `readline()` on the decompressed view. -/
def GeeZipFile.readline (f : GeeZipFile) : Bytes × GeeZipFile :=
  let line := takeLineLim f.rest none
  (line, ⟨f.rest.drop line.length, f.member_offset⟩)

/-- Python `read(count)` on the decompressed view. -/
def GeeZipFile.read (f : GeeZipFile) (count : Option Int) :
    Bytes × GeeZipFile :=
  let r : Bytes :=
    match count with
    | none => f.rest
    | some c => if c < 0 then f.rest else f.rest.take c.toNat
  (r, ⟨f.rest.drop r.length, f.member_offset⟩)

/-- Model of `GzipRecordStream`: the bounded-reader state over a
`GeeZipFile` plus the raw file handle it wraps (only the member offset of
which matters here). -/
structure GzipRecordStream where
  fh : GeeZipFile
  bytes_to_eoc : Option Int
  deriving Repr, DecidableEq

/-- The `_skip_to_eoc` loop running over the decompressed view. -/
def gzSkipLoopF : Nat → GeeZipFile → Int → Except String (GeeZipFile × Int)
  | 0, f, e => .ok (f, e)
  | fuel + 1, f, e =>
    if 0 < e then
      let read_size := min CHUNK_SIZE e
      let r := f.read (some read_size)
      if (r.1.length : Int) < read_size then
        .error "expected bytes but read fewer"
      else
        gzSkipLoopF fuel r.2 (e - r.1.length)
    else
      .ok (f, e)

/-- The errors position of a `_read_record` result tuple: Python's
untyped tuples let the normal return put the parser's error list there
while the end-of-file return `return None, None, offset` puts the
offset value there. -/
inductive ErrSlot where
  | elist (errors : List PError)
  | offsetVal (o : Option Nat)
  deriving Repr, DecidableEq

/-- A bound `parse` method as `GzipRecordStream._read_record` calls it
(the stream it hands over is the `GzipRecordStream` itself). -/
abbrev GzParseFun :=
  GzipRecordStream → Option Nat → Bytes →
    (Option WRecord × List PError × Option Nat) × GzipRecordStream

/-- Terminator-skip loop of `GzipRecordStream._read_record`: reads lines
until one is not a pure CR/LF run.  (The `if not line` check inside the
loop body is dead code — an empty line already fails the terminator test
and breaks first.) -/
def gzTermLoop : Nat → GeeZipFile → Bytes × GeeZipFile
  | 0, f => ([], f)
  | fuel + 1, f =>
    let r := f.readline
    if !isTerminatorLine r.1 then (r.1, r.2)
    else gzTermLoop fuel r.2

/-- Model of `GzipRecordStream._read_record`: skip the previous record's
content, capture the member offset, skip terminator lines, and either
return `(None, None, offset)` at end-of-file — note the offset landing in
the errors position — or parse a record and return
`(offset, record, errors)`. -/
def gzipReadRecord (parser : GzParseFun) (g : GzipRecordStream)
    (offsets : Bool) :
    Except String ((Option Nat × Option WRecord × ErrSlot) × GzipRecordStream) := do
  let g ← (match g.bytes_to_eoc with
    | some e => (gzSkipLoopF (e.toNat + 1) g.fh e).map (fun r => (⟨r.1, none⟩ : GzipRecordStream))
    | none => pure { g with bytes_to_eoc := none })
  let offset : Option Nat := if offsets then some g.fh.member_offset else none
  let t := gzTermLoop (g.fh.rest.length + 1) g.fh
  if t.1 = [] then
    return ((none, none, .offsetVal offset), { g with fh := t.2 })
  else
    let offset := if offsets then some t.2.member_offset else offset
    let r := parser { g with fh := t.2 } offset t.1
    return ((offset, r.1.1, .elist r.1.2.1), r.2)

/-- Model of `RecordStream.read_records(limit, offsets)` for the
gzip-per-record stream with an integer limit: collects the yielded
tuples, stopping early when a tuple carries no record. -/
def gzipReadRecords (parser : GzParseFun) :
    Nat → GzipRecordStream → Bool →
      Except String (List (Option Nat × Option WRecord × ErrSlot) × GzipRecordStream)
  | 0, g, _ => .ok ([], g)
  | limit + 1, g, offsets => do
    let (t, g') ← gzipReadRecord parser g offsets
    if t.2.1.isSome then
      let (ts, g2) ← gzipReadRecords parser limit g' offsets
      return (t :: ts, g2)
    else
      return ([t], g')

/-- Terminator-skip loop of the plain `RecordStream._read_record`,
tracking the offset adjustment over skipped blank lines and returning
the offset of the first substantive line (`self.fh.tell() - len(line)`). -/
def plainTermLoop : Nat → PyFile → Bytes × PyFile
  | 0, f => ([], f)
  | fuel + 1, f =>
    let r := f.readline none
    if !isTerminatorLine r.1 then (r.1, r.2)
    else plainTermLoop fuel r.2

/-- Model of the plain `RecordStream._read_record`: skip the previous
record's content, record the offset of the first substantive line, and
hand that line to the parser; its result tuple always carries the
parser's error list (an honest `List PError`) in the errors position.
The outer `none` models the parser diverging. -/
def plainReadRecord (parser : ParseFun) (s : RecordStream) (offsets : Bool) :
    Except String
      (Option ((Option Nat × Option WRecord × List PError) × RecordStream)) := do
  let s ← (match s.bytes_to_eoc with
    | some e => (skipLoopF (e.toNat + 1) s.fh e).map (fun r => (⟨r.1, none⟩ : RecordStream))
    | none => pure { s with bytes_to_eoc := none })
  let t := plainTermLoop (s.fh.rest.length + 1) s.fh
  let offset : Option Nat := if offsets then some (t.2.told - t.1.length) else none
  match parser { s with fh := t.2 } offset (some t.1) with
  | none => return none
  | some (res, s2) => return some ((res.offset, res.record, res.errors), s2)

/-! ## Statement-side predicates and derived forms

Auxiliary definitions used only to state and organise the theorems:
a decidable characterisation of `readline` results, the well-formedness
predicates of the round-trip claim, and the header-phase view of the
parser's header loop. -/

/-- A byte string that `readline` can produce in the middle of a stream:
non-empty, `\n`-terminated, with no interior `\n`. -/
def isLineB (l : Bytes) : Bool :=
  !l.isEmpty && l.getLast? = some 10 && !(l.dropLast.contains 10)

/-- A line the version hunt ignores with a diagnostic: non-empty, not a
version line, not blank. -/
def garbageLineB (l : Bytes) : Bool :=
  !l.isEmpty && (versionMatch l).isNone && !nlMatch l

/-- One written header line, `name ": " value CRLF` (`_write_to`);
also the shape of the writer's `Content-Type` and `Content-Length`
lines. -/
def hline (kv : Bytes × Bytes) : Bytes :=
  kv.1 ++ [58, 32] ++ kv.2 ++ nlCRLF

/-- The written header block of a header list. -/
def hlBytes (hs : List (Bytes × Bytes)) : Bytes := (hs.map hline).flatten

/-- A header name that round-trips: non-empty and free of whitespace and
colon bytes. -/
def goodNameB (k : Bytes) : Bool :=
  !k.isEmpty && k.all (fun b => !(isSpaceByte b || b = 58))

/-- A header value that round-trips: no CR or LF bytes and invariant
under stripping. -/
def goodValueB (v : Bytes) : Bool :=
  !(v.contains 10) && !(v.contains 13) && decide (stripBytes v = v)

/-- A well-formed written header pair. -/
def wfPair (kv : Bytes × Bytes) : Bool := goodNameB kv.1 && goodValueB kv.2

/-- A header name that is not the writer-managed `Content-Type` or
`Content-Length` (case-insensitively). -/
def plainName (k : Bytes) : Bool :=
  !(ciEq k wCONTENT_TYPE) && !(ciEq k wCONTENT_LENGTH)

/-- Well-formedness of a record for the round-trip claim: a known
version, well-formed headers none of which is a content header (the
writer regenerates those from the content tuple), and resolved content
whose non-empty content type is itself a well-formed value. -/
def WfResolvedRecord (r : WRecord) : Prop :=
  (r.version = VERSION10 ∨ r.version = VERSION11 ∨
    r.version = VERSION17 ∨ r.version = VERSION18) ∧
  r.headers.all (fun kv => wfPair kv && plainName kv.1) = true ∧
  (∃ c, r.content = some c ∧
    (∀ t, c.1 = some t → t ≠ [] → goodValueB t = true))

/-- The content headers the writer appends for a resolved record. -/
def ctHeadersOf (r : WRecord) : List (Bytes × Bytes) :=
  match r.content with
  | some (ct, cb) =>
    (match ct with
     | some t => if t = [] then [] else [(wCONTENT_TYPE, t)]
     | none => []) ++ [(wCONTENT_LENGTH, natToDec (cb.getD []).length)]
  | none => []

/-- The written content buffer of a resolved record. -/
def contentBufOf (r : WRecord) : Bytes :=
  match r.content with
  | some (_, cb) => cb.getD []
  | none => []

/-- The header loop as `warcParse` enters it: read the next line, then
run `headerLoop` on it. -/
def headerPhase (fuel : Nat) (s : RecordStream) (hdrs : List (Bytes × Bytes))
    (clen : Int) (errs : List PError) :
    Option (List (Bytes × Bytes) × Int × List PError × RecordStream) :=
  let r := s.readline none
  headerLoop fuel r.2 r.1 hdrs clen errs

/-- Shape of the bytes following the last plain header line in a written
record: either a line opening with a non-whitespace byte (the writer's
`Content-Type`/`Content-Length` lines) or the blank CRLF separator —
either way the next line folds into no continuation. -/
def NextOk (tailB : Bytes) : Prop :=
  (∃ h t, tailB = h :: t ∧ isSpaceByte h = false) ∨
  (∃ t, tailB = 13 :: 10 :: t)

/-! ## Supporting lemmas -/

theorem takeLineLim_le_lim (rest : Bytes) (k : Nat) :
    (takeLineLim rest (some k)).length ≤ k := by
  induction rest generalizing k with
  | nil => cases k <;> simp [takeLineLim]
  | cons b tl ih =>
    cases k with
    | zero => simp [takeLineLim]
    | succ m =>
      by_cases h : b = 10 <;> simp [takeLineLim, h]
      exact ih m

theorem takeLineLim_prefix (rest : Bytes) (lim : Option Nat) :
    rest.take (takeLineLim rest lim).length = takeLineLim rest lim := by
  induction rest generalizing lim with
  | nil => cases lim with
    | none => simp [takeLineLim]
    | some n => cases n <;> simp [takeLineLim]
  | cons b tl ih =>
    cases lim with
    | none =>
      by_cases h : b = 10 <;> simp [takeLineLim, h]
      exact ih none
    | some n =>
      cases n with
      | zero => simp [takeLineLim]
      | succ m =>
        by_cases h : b = 10 <;> simp [takeLineLim, h]
        exact ih (some m)

theorem takeLine_body (body tail : Bytes) (hb : body.contains 10 = false) :
    takeLineLim (body ++ 10 :: tail) none = body ++ [10] := by
  induction body with
  | nil => simp [takeLineLim]
  | cons b t ih =>
    simp only [List.contains_cons, Bool.or_eq_false_iff] at hb
    have hb10 : b ≠ 10 := by
      intro h
      subst h
      simp at hb
    simp only [List.cons_append, takeLineLim, if_neg hb10]
    simp only [Option.map_none', List.append_eq]
    rw [ih hb.2]

theorem isLineB_shape (l : Bytes) (hl : isLineB l = true) :
    l = l.dropLast ++ [10] ∧ l.dropLast.contains 10 = false := by
  simp only [isLineB, Bool.and_eq_true, Bool.not_eq_true', List.isEmpty_eq_false,
    decide_eq_true_eq] at hl
  obtain ⟨⟨hne, hlast⟩, hnoc⟩ := hl
  constructor
  · conv_lhs => rw [← List.dropLast_append_getLast hne]
    congr 1
    have := List.getLast?_eq_getLast l hne
    rw [this] at hlast
    simp only [Option.some.injEq] at hlast
    rw [hlast]
  · exact hnoc

theorem takeLine_isLine (l tail : Bytes) (hl : isLineB l = true) :
    takeLineLim (l ++ tail) none = l := by
  obtain ⟨hshape, hnoc⟩ := isLineB_shape l hl
  conv_lhs => rw [hshape]
  rw [List.append_assoc]
  simp only [List.cons_append, List.nil_append]
  rw [takeLine_body _ _ hnoc, ← hshape]

theorem readline_isLine (s : RecordStream) (l tail : Bytes)
    (hl : isLineB l = true) (hr : s.fh.rest = l ++ tail)
    (he : s.bytes_to_eoc = none) :
    s.readline none = (l, ⟨⟨tail, s.fh.told + l.length⟩, none⟩) := by
  simp only [RecordStream.readline, PyFile.readline, he, hr,
    takeLine_isLine l tail hl]
  simp

theorem splitNl_crlf (body : Bytes) :
    splitNl (body ++ [13, 10]) = some (body, [13, 10]) := by
  simp [splitNl, List.reverse_append]

theorem splitNl_append (line body nl : Bytes)
    (h : splitNl line = some (body, nl)) : line = body ++ nl := by
  have hline : line = line.reverse.reverse := (List.reverse_reverse line).symm
  unfold splitNl at h
  rcases hrev : line.reverse with _ | ⟨b, _ | ⟨c, rest⟩⟩ <;> rw [hrev] at h hline
  · simp at h
  · by_cases hb10 : b = 10
    · subst hb10
      simp at h
      obtain ⟨h1, h2⟩ := h
      subst h1
      subst h2
      simpa using hline
    · by_cases hb13 : b = 13
      · subst hb13
        simp at h
        obtain ⟨h1, h2⟩ := h
        subst h1
        subst h2
        simpa using hline
      · simp [hb10, hb13] at h
  · by_cases hb10 : b = 10
    · subst hb10
      by_cases hc13 : c = 13
      · subst hc13
        simp at h
        obtain ⟨h1, h2⟩ := h
        subst h1
        subst h2
        simpa using hline
      · simp [hc13] at h
        obtain ⟨h1, h2⟩ := h
        subst h1
        subst h2
        simpa using hline
    · by_cases hb13 : b = 13
      · subst hb13
        simp [hb10] at h
        obtain ⟨h1, h2⟩ := h
        subst h1
        subst h2
        simpa using hline
      · simp [hb10, hb13] at h

theorem findColonSplit_no58 (k rest : Bytes) (hk : k.contains 58 = false) :
    findColonSplit (k ++ 58 :: rest) = some (k, rest) := by
  induction k with
  | nil => simp [findColonSplit]
  | cons b t ih =>
    simp only [List.contains_cons, Bool.or_eq_false_iff] at hk
    have hb : b ≠ 58 := by
      intro h
      subst h
      simp at hk
    simp only [List.cons_append, findColonSplit, if_neg hb, List.append_eq]
    rw [ih hk.2]
    rfl

theorem goodName_facts (k : Bytes) (hk : goodNameB k = true) :
    k ≠ [] ∧ k.contains 58 = false ∧ k.contains 10 = false ∧
    k.contains 13 = false ∧ (∀ b ∈ k, isSpaceByte b = false) := by
  simp only [goodNameB, Bool.and_eq_true, Bool.not_eq_true',
    List.isEmpty_eq_false, List.all_eq_true] at hk
  obtain ⟨hne, hall⟩ := hk
  have hfact : ∀ b ∈ k, isSpaceByte b = false ∧ b ≠ 58 := by
    intro b hb
    have := hall b hb
    simp only [Bool.not_eq_true', Bool.or_eq_false_iff,
      decide_eq_false_iff_not] at this
    exact this
  have hnum : ∀ b ∈ k, b ≠ 58 ∧ b ≠ 10 ∧ b ≠ 13 := by
    intro b hb
    have h1 := (hfact b hb).1
    simp only [isSpaceByte, Bool.or_eq_false_iff, decide_eq_false_iff_not] at h1
    exact ⟨(hfact b hb).2, h1.1.1.1.2, h1.2⟩
  refine ⟨hne, ?_, ?_, ?_, fun b hb => (hfact b hb).1⟩
  · simpa using fun h => (hnum 58 h).1 rfl
  · simpa using fun h => (hnum 10 h).2.1 rfl
  · simpa using fun h => (hnum 13 h).2.2 rfl

theorem headerMatch_hline (k v : Bytes) (hk : goodNameB k = true) :
    headerMatch (hline (k, v)) = some ⟨k, v, [13, 10]⟩ := by
  obtain ⟨hne, h58, h10, h13, hsp⟩ := goodName_facts k hk
  have hshape : hline (k, v) = (k ++ 58 :: 32 :: v) ++ [13, 10] := by
    simp [hline, nlCRLF]
  rw [headerMatch, hshape, splitNl_crlf]
  have hcolon : findColonSplit (k ++ 58 :: (32 :: v)) = some (k, 32 :: v) :=
    findColonSplit_no58 k (32 :: v) h58
  dsimp only
  rw [hcolon]
  simp [isSpaceByte]

theorem valueMatch_head_nonspace (h : Nat) (t : Bytes)
    (hns : isSpaceByte h = false) : valueMatch (h :: t) = none := by
  unfold valueMatch
  cases hsn : splitNl (h :: t) with
  | none => rfl
  | some p =>
    obtain ⟨body, nl⟩ := p
    have hb := splitNl_append (h :: t) body nl hsn
    cases body with
    | nil => simp
    | cons b bt =>
      simp only [List.cons_append] at hb
      have hbh : b = h := by
        injection hb with h1 _
        exact h1.symm
      subst hbh
      simp [List.takeWhile, hns]

theorem nlMatch_hline_false (k v : Bytes) (hk : goodNameB k = true) :
    nlMatch (hline (k, v)) = false := by
  obtain ⟨hne, _, _, _, hsp⟩ := goodName_facts k hk
  rcases k with _ | ⟨b, t⟩
  · simp at hne
  · have hb := hsp b (List.mem_cons_self b t)
    simp only [isSpaceByte, Bool.or_eq_false_iff, decide_eq_false_iff_not] at hb
    simp only [hline, List.cons_append, nlMatch, List.head?_cons]
    simp only [Bool.or_eq_false_iff]
    constructor
    · simp only [Option.some.injEq, decide_eq_false_iff_not]
      omega
    · simp only [List.cons.injEq, decide_eq_false_iff_not, not_and]
      intro hb10
      omega

theorem dropWhile_head_neg (p : Nat → Bool) (l : Bytes)
    (hl : ∀ b ∈ l, p b = false) : l.dropWhile p = l := by
  cases l with
  | nil => rfl
  | cons b t =>
    rw [List.dropWhile_cons_of_neg]
    simp [hl b (List.mem_cons_self b t)]

theorem strip_no_space (k : Bytes) (hk : ∀ b ∈ k, isSpaceByte b = false) :
    stripBytes k = k := by
  unfold stripBytes
  rw [dropWhile_head_neg _ _ hk]
  rw [dropWhile_head_neg _ _ (fun b hb => hk b (List.mem_reverse.mp hb))]
  exact List.reverse_reverse k

theorem contLoop_nomatch (fuel : Nat) (s : RecordStream) (line : Bytes)
    (vals : List Bytes) (errs : List PError)
    (h : valueMatch line = none) :
    contLoop fuel s line vals errs = (vals, line, errs, s) := by
  cases fuel <;> simp [contLoop, h]

theorem decValue_append (ds : Bytes) (d : Nat) :
    decValue (ds ++ [d]) = decValue ds * 10 + (d - 48) := by
  simp [decValue, List.foldl_append]

theorem natToDecAux_spec (fuel n : Nat) (h : n < fuel) :
    natToDecAux fuel n ≠ [] ∧ (natToDecAux fuel n).all isDigitByte = true ∧
    decValue (natToDecAux fuel n) = n := by
  induction fuel generalizing n with
  | zero => omega
  | succ fuel ih =>
    rw [natToDecAux]
    by_cases hn : n < 10
    · rw [if_pos hn]
      refine ⟨by simp, ?_, ?_⟩
      · simp [isDigitByte]
        omega
      · simp [decValue]
    · rw [if_neg hn]
      have hrec := ih (n / 10) (by omega)
      obtain ⟨h1, h2, h3⟩ := hrec
      refine ⟨by simp, ?_, ?_⟩
      · simp only [List.all_append, h2, Bool.true_and, List.all_cons,
          List.all_nil, Bool.and_true]
        simp [isDigitByte]
        omega
      · rw [decValue_append, h3]
        omega

theorem pyInt_natToDec (n : Nat) : pyInt (natToDec n) = some n := by
  obtain ⟨hne, hall, hval⟩ := natToDecAux_spec (n + 1) n (by omega)
  rw [pyInt]
  have hdig : ∀ b ∈ natToDecAux (n + 1) n, isDigitByte b = true := by
    rw [List.all_eq_true] at hall
    exact hall
  have hnospace : ∀ b ∈ natToDecAux (n + 1) n, isSpaceByte b = false := by
    intro b hb
    have := hdig b hb
    simp only [isDigitByte, Bool.and_eq_true, decide_eq_true_eq] at this
    simp only [isSpaceByte, Bool.or_eq_false_iff, decide_eq_false_iff_not]
    omega
  have hstrip : stripBytes (natToDec n) = natToDecAux (n + 1) n :=
    strip_no_space _ hnospace
  rw [natToDec] at hstrip ⊢
  rw [hstrip]
  rcases hshape : natToDecAux (n + 1) n with _ | ⟨c, rest⟩
  · exact absurd hshape hne
  · have hc : isDigitByte c = true := by
      apply hdig
      rw [hshape]
      exact List.mem_cons_self c rest
    simp only [isDigitByte, Bool.and_eq_true, decide_eq_true_eq] at hc
    dsimp only
    rw [if_neg (by omega : ¬c = 43), if_neg (by omega : ¬c = 45)]
    rw [← hshape]
    have hcond : (natToDecAux (n + 1) n ≠ [] ∧
        (natToDecAux (n + 1) n).all isDigitByte = true) := ⟨hne, hall⟩
    rw [if_pos hcond, hval]
    rfl

theorem garbage_facts (l : Bytes) (h : garbageLineB l = true) :
    l ≠ [] ∧ versionMatch l = none ∧ nlMatch l = false := by
  simp only [garbageLineB, Bool.and_eq_true, Bool.not_eq_true',
    List.isEmpty_eq_false, Option.isNone_iff_eq_none] at h
  exact ⟨h.1.1, h.1.2, h.2⟩

theorem seekVersion_garbage_step (fuel : Nat) (s : RecordStream)
    (line next tail : Bytes) (off : Option Nat) (errs : List PError)
    (hg : garbageLineB line = true)
    (hlen : errs.length < bad_lines)
    (hnext : isLineB next = true)
    (hrest : s.fh.rest = next ++ tail)
    (heoc : s.bytes_to_eoc = none) :
    seekVersion (fuel + 1) s line off errs
      = seekVersion fuel ⟨⟨tail, s.fh.told + next.length⟩, none⟩ next
          (off.map (· + line.length)) (errs ++ [⟨"ignored line", [line]⟩]) := by
  obtain ⟨hne, hvm, hnl⟩ := garbage_facts line hg
  rw [seekVersion, if_neg hne, hvm]
  dsimp only
  rw [if_neg (by simp [hnl])]
  rw [if_neg (by simp only [List.length_append, List.length_cons,
    List.length_nil]; omega)]
  rw [readline_isLine s next tail hnext hrest heoc]

theorem seekVersion_garbage_abort (fuel : Nat) (s : RecordStream)
    (line : Bytes) (off : Option Nat) (errs : List PError)
    (hg : garbageLineB line = true)
    (hlen : errs.length = bad_lines) :
    seekVersion (fuel + 1) s line off errs
      = (.abort (errs ++ [⟨"ignored line", [line]⟩]
            ++ [⟨"too many errors, giving up hope", []⟩])
          (off.map (· + line.length)), s) := by
  obtain ⟨hne, hvm, hnl⟩ := garbage_facts line hg
  rw [seekVersion, if_neg hne, hvm]
  dsimp only
  rw [if_neg (by simp [hnl])]
  rw [if_pos (by simp only [List.length_append, List.length_cons,
    List.length_nil]; omega)]

theorem warcParse_record_no_errors (s : RecordStream) (offset : Option Nat)
    (lineArg : Option Bytes) (res : ParseResult) (s2 : RecordStream)
    (h : warcParse s offset lineArg = some (res, s2))
    (hrec : res.record.isSome) :
    res.errors = [] := by
  rw [warcParse] at h
  split at h
  · simp only [Option.some.injEq, Prod.mk.injEq] at h
    rw [← h.1] at hrec
    simp at hrec
  · simp only [Option.some.injEq, Prod.mk.injEq] at h
    rw [← h.1] at hrec
    simp at hrec
  · dsimp only at h
    repeat' split at h
    all_goals
      first
        | exact Option.noConfusion h
        | (injection h with h1
           injection h1 with h3 h4
           rw [← h3])

theorem warcParse_garbage_abort (s : RecordStream) (offset : Option Nat)
    (l1 l2 l3 l4 l5 l6 rest2 : Bytes)
    (hg1 : garbageLineB l1 = true) (hg2 : garbageLineB l2 = true)
    (hg3 : garbageLineB l3 = true) (hg4 : garbageLineB l4 = true)
    (hg5 : garbageLineB l5 = true) (hg6 : garbageLineB l6 = true)
    (hl2 : isLineB l2 = true) (hl3 : isLineB l3 = true)
    (hl4 : isLineB l4 = true) (hl5 : isLineB l5 = true) (hl6 : isLineB l6 = true)
    (heoc : s.bytes_to_eoc = none)
    (hrest : s.fh.rest = l2 ++ (l3 ++ (l4 ++ (l5 ++ (l6 ++ rest2))))) :
    ∃ errs off2 s2,
      warcParse s offset (some l1) = some (⟨none, errs, off2⟩, s2) ∧
      errs ≠ [] := by
  have hne : ∀ l : Bytes, garbageLineB l = true → 1 ≤ l.length := by
    intro l hl
    have := (garbage_facts l hl).1
    exact List.length_pos.mpr this
  obtain ⟨k, hk⟩ : ∃ k, parseFuel s l1 = k + 6 := by
    refine ⟨parseFuel s l1 - 6, ?_⟩
    have h1 := hne l1 hg1
    have h2 := hne l2 hg2
    have h3 := hne l3 hg3
    have h4 := hne l4 hg4
    have h5 := hne l5 hg5
    have h6 := hne l6 hg6
    simp only [parseFuel, hrest, List.length_append]
    omega
  rw [warcParse]
  dsimp only [firstLine]
  rw [hk]
  rw [show k + 6 = (k + 5) + 1 from by omega,
    seekVersion_garbage_step (k + 5) s l1 l2
      (l3 ++ (l4 ++ (l5 ++ (l6 ++ rest2)))) offset [] hg1
      (by simp [bad_lines]) hl2 hrest heoc]
  rw [show k + 5 = (k + 4) + 1 from by omega,
    seekVersion_garbage_step (k + 4) _ l2 l3 (l4 ++ (l5 ++ (l6 ++ rest2)))
      _ _ hg2 (by simp [bad_lines]) hl3 rfl rfl]
  rw [show k + 4 = (k + 3) + 1 from by omega,
    seekVersion_garbage_step (k + 3) _ l3 l4 (l5 ++ (l6 ++ rest2))
      _ _ hg3 (by simp [bad_lines]) hl4 rfl rfl]
  rw [show k + 3 = (k + 2) + 1 from by omega,
    seekVersion_garbage_step (k + 2) _ l4 l5 (l6 ++ rest2)
      _ _ hg4 (by simp [bad_lines]) hl5 rfl rfl]
  rw [show k + 2 = (k + 1) + 1 from by omega,
    seekVersion_garbage_step (k + 1) _ l5 l6 rest2
      _ _ hg5 (by simp [bad_lines]) hl6 rfl rfl]
  rw [seekVersion_garbage_abort k _ l6 _ _ hg6 (by simp [bad_lines])]
  exact ⟨_, _, _, rfl, by simp⟩

/-- C5.  `WarcParser.parse` never returns both a record and a non-empty
error list (when a record comes back, the returned error list is exactly
the empty one — per-record diagnostics live on the record itself), and
six consecutive unrecognized non-blank lines ahead of any version line —
one more than the `bad_lines` cap of 5 — make it return no record
together with a non-empty error list. -/
theorem parse_error_discipline :
    (∀ (s : RecordStream) (offset : Option Nat) (lineArg : Option Bytes)
        (res : ParseResult) (s2 : RecordStream),
      warcParse s offset lineArg = some (res, s2) → res.record.isSome →
        res.errors = []) ∧
    (∀ (s : RecordStream) (offset : Option Nat) (l1 l2 l3 l4 l5 l6 rest2 : Bytes),
      garbageLineB l1 = true → garbageLineB l2 = true →
      garbageLineB l3 = true → garbageLineB l4 = true →
      garbageLineB l5 = true → garbageLineB l6 = true →
      isLineB l2 = true → isLineB l3 = true → isLineB l4 = true →
      isLineB l5 = true → isLineB l6 = true →
      s.bytes_to_eoc = none →
      s.fh.rest = l2 ++ (l3 ++ (l4 ++ (l5 ++ (l6 ++ rest2)))) →
      ∃ errs off2 s2,
        warcParse s offset (some l1) = some (⟨none, errs, off2⟩, s2) ∧
        errs ≠ []) :=
  ⟨warcParse_record_no_errors,
   fun s offset l1 l2 l3 l4 l5 l6 rest2 hg1 hg2 hg3 hg4 hg5 hg6 hl2 hl3 hl4
       hl5 hl6 heoc hrest =>
     warcParse_garbage_abort s offset l1 l2 l3 l4 l5 l6 rest2 hg1 hg2 hg3 hg4
       hg5 hg6 hl2 hl3 hl4 hl5 hl6 heoc hrest⟩

/-- Witness for C5 at six concrete garbage lines. -/
theorem parse_error_discipline_witness :
    (garbageLineB (bs "a\r\n") = true ∧ garbageLineB (bs "b\r\n") = true ∧
     garbageLineB (bs "c\r\n") = true ∧ garbageLineB (bs "d\r\n") = true ∧
     garbageLineB (bs "e\r\n") = true ∧ garbageLineB (bs "f\r\n") = true ∧
     isLineB (bs "b\r\n") = true ∧
     (mkStream (bs "b\r\nc\r\nd\r\ne\r\nf\r\n")).bytes_to_eoc = none ∧
     (mkStream (bs "b\r\nc\r\nd\r\ne\r\nf\r\n")).fh.rest
       = bs "b\r\n" ++ (bs "c\r\n" ++ (bs "d\r\n" ++ (bs "e\r\n" ++ (bs "f\r\n" ++ []))))) ∧
    (∃ errs off2 s2,
      warcParse (mkStream (bs "b\r\nc\r\nd\r\ne\r\nf\r\n")) (some 0)
          (some (bs "a\r\n"))
        = some (⟨none, errs, off2⟩, s2) ∧ errs ≠ []) :=
  ⟨⟨by decide, by decide, by decide, by decide, by decide, by decide,
    by decide, rfl, by decide⟩,
   parse_error_discipline.2 (mkStream (bs "b\r\nc\r\nd\r\ne\r\nf\r\n")) (some 0)
     (bs "a\r\n") (bs "b\r\n") (bs "c\r\n") (bs "d\r\n") (bs "e\r\n") (bs "f\r\n")
     [] (by decide) (by decide) (by decide) (by decide) (by decide) (by decide)
     (by decide) (by decide) (by decide) (by decide) (by decide) rfl (by decide)⟩

theorem mixedLoop_skip (arcP : ParseFun) (fuel : Nat) (s : RecordStream)
    (line : Bytes) (offset : Option Nat) (hfuel : s.fh.rest.length < fuel) :
    mixedLoop arcP fuel s line offset =
      (if (skipBlankMixed fuel s line).1 = [] then
        some (⟨none, [], offset⟩, (skipBlankMixed fuel s line).2)
      else if (skipBlankMixed fuel s line).1.take 4 = bs "WARC" then
        warcParse (skipBlankMixed fuel s line).2 offset
          (some (skipBlankMixed fuel s line).1)
      else arcP (skipBlankMixed fuel s line).2 offset
        (some (skipBlankMixed fuel s line).1)) := by
  induction fuel generalizing s line with
  | zero => omega
  | succ fuel ih =>
    rw [mixedLoop, skipBlankMixed]
    by_cases h0 : line = []
    · simp [h0]
    · rw [if_neg h0, if_neg h0]
      by_cases hb : line = [10] ∨ line = [13, 10] ∨ line = [13]
      · have hw : ¬ line.take 4 = bs "WARC" := by
          rcases hb with hb | hb | hb <;> subst hb <;> decide
        have harc : ¬(line ≠ [10] ∧ line ≠ [13, 10] ∧ line ≠ [13]) := by
          tauto
        rw [if_neg hw, if_neg harc, if_pos hb]
        by_cases hr : (s.readline none).1 = []
        · have h1 : mixedLoop arcP fuel (s.readline none).2
              (s.readline none).1 offset
              = some (⟨none, [], offset⟩, (s.readline none).2) := by
            rw [hr]
            cases fuel <;> simp [mixedLoop]
          have h2 : skipBlankMixed fuel (s.readline none).2 (s.readline none).1
              = ((s.readline none).1, (s.readline none).2) := by
            rw [hr]
            cases fuel <;> simp [skipBlankMixed]
          rw [h1, h2, if_pos hr]
        · have hlt : (s.readline none).2.fh.rest.length < fuel := by
            have hsum := rs_readline_rest s none
            have hpos : 1 ≤ (s.readline none).1.length :=
              List.length_pos.mpr hr
            omega
          exact ih _ _ hlt
      · have harc : line ≠ [10] ∧ line ≠ [13, 10] ∧ line ≠ [13] := by
          tauto
        rw [if_neg hb]
        by_cases hw : line.take 4 = bs "WARC"
        · rw [if_pos hw]
          dsimp only
          rw [if_neg h0, if_pos hw]
        · rw [if_neg hw, if_pos harc]
          dsimp only
          rw [if_neg h0, if_neg hw]

/-- C8.  `MixedParser.parse` resolves the first line (reading one when
none was passed), skips lines that are exactly a bare line end, and
routes: end-of-file yields no record, a first substantive line starting
with the literal `WARC` goes to the WARC parser, and any other
substantive line goes to the ARC parser — in each case handing the
chosen parser the stream positioned right after the already-read line
together with that line, so no byte is consumed twice. -/
theorem mixed_dispatch_routing (arcP : ParseFun) (s : RecordStream)
    (offset : Option Nat) (lineArg : Option Bytes) :
    ∀ l s2,
      skipBlankMixed (parseFuel (firstLine s lineArg).2 (firstLine s lineArg).1)
        (firstLine s lineArg).2 (firstLine s lineArg).1 = (l, s2) →
      ((l = [] →
          mixedParse arcP s offset lineArg = some (⟨none, [], offset⟩, s2)) ∧
       (l.take 4 = bs "WARC" →
          mixedParse arcP s offset lineArg = warcParse s2 offset (some l)) ∧
       (l ≠ [] → l.take 4 ≠ bs "WARC" →
          mixedParse arcP s offset lineArg = arcP s2 offset (some l))) := by
  intro l s2 hskip
  have hfuel : (firstLine s lineArg).2.fh.rest.length
      < parseFuel (firstLine s lineArg).2 (firstLine s lineArg).1 := by
    simp only [parseFuel]
    omega
  have hkey := mixedLoop_skip arcP
    (parseFuel (firstLine s lineArg).2 (firstLine s lineArg).1)
    (firstLine s lineArg).2 (firstLine s lineArg).1 offset hfuel
  rw [hskip] at hkey
  dsimp only at hkey
  rw [mixedParse]
  refine ⟨?_, ?_, ?_⟩
  · intro h
    rw [hkey, if_pos h]
  · intro h
    have h0 : l ≠ [] := by
      intro he
      subst he
      exact absurd h (by decide)
    rw [hkey, if_neg h0, if_pos h]
  · intro h0 hw
    rw [hkey, if_neg h0, if_neg hw]

/-- Witness for C8: two blank lines, then a WARC version line, routed to
the WARC parser with the line passed along. -/
theorem mixed_dispatch_routing_witness :
    (skipBlankMixed
        (parseFuel (firstLine (mkStream (bs "\r\n\nWARC/1.0\r\n\r\n")) none).2
          (firstLine (mkStream (bs "\r\n\nWARC/1.0\r\n\r\n")) none).1)
        (firstLine (mkStream (bs "\r\n\nWARC/1.0\r\n\r\n")) none).2
        (firstLine (mkStream (bs "\r\n\nWARC/1.0\r\n\r\n")) none).1
      = (bs "WARC/1.0\r\n", ⟨⟨bs "\r\n", 13⟩, none⟩)) ∧
    ((bs "WARC/1.0\r\n").take 4 = bs "WARC" →
      mixedParse (fun s o _ => some (⟨none, [], o⟩, s))
          (mkStream (bs "\r\n\nWARC/1.0\r\n\r\n")) (some 0) none
        = warcParse (⟨⟨bs "\r\n", 13⟩, none⟩ : RecordStream) (some 0)
            (some (bs "WARC/1.0\r\n"))) :=
  ⟨by decide,
   (mixed_dispatch_routing (fun s o _ => some (⟨none, [], o⟩, s))
       (mkStream (bs "\r\n\nWARC/1.0\r\n\r\n")) (some 0) none
       (bs "WARC/1.0\r\n") (⟨⟨bs "\r\n", 13⟩, none⟩ : RecordStream)
       (by decide)).2.1⟩

/-- C10 counterexample: at clean end-of-file with offsets enabled,
`GzipRecordStream._read_record` executes `return None, None, offset` —
so the offset component of the yielded tuple is `None` and the errors
component carries the member offset (42 here), not `None`: the tuple the
claim predicts, `(offset, None, None)`, is a different value. -/
theorem gzip_eof_counterexample :
    gzipReadRecord (fun g o _ => ((none, [], o), g)) ⟨⟨[], 42⟩, none⟩ true
      = .ok ((none, none, .offsetVal (some 42)), ⟨⟨[], 42⟩, none⟩) ∧
    ((none, none, ErrSlot.offsetVal (some 42))
        : Option Nat × Option WRecord × ErrSlot)
      ≠ (some 42, none, ErrSlot.offsetVal none) := by
  refine ⟨by decide, by decide⟩

/-- C10 (amended).  At clean end-of-file the gzip-per-record
`_read_record` returns the tuple `(None, None, offset)` — the components
misplaced relative to the `(offset, record, errors)` convention — so
`read_records` yields a final tuple whose offset and record components
are `None` and whose errors component carries the captured offset value:
`None` when offsets are disabled and the member offset number when they
are enabled, in neither case a list; the plain transport's
`_read_record`, by contrast, always returns the parser's error list in
that position (an empty list at clean end-of-file). -/
theorem gzip_eof_swapped_tuple (parser : GzParseFun) (g : GzipRecordStream)
    (heof : g.fh.rest = []) (heoc : g.bytes_to_eoc = none) (offsets : Bool) :
    gzipReadRecord parser g offsets
      = .ok ((none, none,
          .offsetVal (if offsets then some g.fh.member_offset else none)),
         { g with bytes_to_eoc := none }) ∧
    gzipReadRecords parser 1 g offsets
      = .ok ([(none, none,
          .offsetVal (if offsets then some g.fh.member_offset else none))],
         { g with bytes_to_eoc := none }) ∧
    plainReadRecord warcParse (mkStream []) true
      = .ok (some ((some 0, none, ([] : List PError)), mkStream [])) := by
  obtain ⟨⟨rest, mo⟩, eoc⟩ := g
  simp only at heof heoc
  subst heof
  subst heoc
  refine ⟨?_, ?_, by rfl⟩ <;> cases offsets <;> rfl

/-- Witness for C10 (amended) at a concrete empty gzip stream. -/
theorem gzip_eof_swapped_tuple_witness :
    ((⟨⟨[], 7⟩, none⟩ : GzipRecordStream).fh.rest = [] ∧
      (⟨⟨[], 7⟩, none⟩ : GzipRecordStream).bytes_to_eoc = none) ∧
    (gzipReadRecord (fun g o _ => ((none, [], o), g)) ⟨⟨[], 7⟩, none⟩ true
      = .ok ((none, none,
          .offsetVal (if true then
            some (⟨⟨[], 7⟩, none⟩ : GzipRecordStream).fh.member_offset
          else none)),
         { (⟨⟨[], 7⟩, none⟩ : GzipRecordStream) with bytes_to_eoc := none }) ∧
     gzipReadRecords (fun g o _ => ((none, [], o), g)) 1 ⟨⟨[], 7⟩, none⟩ true
      = .ok ([(none, none,
          .offsetVal (if true then
            some (⟨⟨[], 7⟩, none⟩ : GzipRecordStream).fh.member_offset
          else none))],
         { (⟨⟨[], 7⟩, none⟩ : GzipRecordStream) with bytes_to_eoc := none }) ∧
     plainReadRecord warcParse (mkStream []) true
      = .ok (some ((some 0, none, ([] : List PError)), mkStream []))) :=
  ⟨⟨rfl, rfl⟩,
   gzip_eof_swapped_tuple (fun g o _ => ((none, [], o), g)) ⟨⟨[], 7⟩, none⟩
     rfl rfl true⟩

theorem goodValue_facts (v : Bytes) (hv : goodValueB v = true) :
    stripBytes v = v ∧ v.contains 10 = false ∧ v.contains 13 = false := by
  simp only [goodValueB, Bool.and_eq_true, Bool.not_eq_true',
    decide_eq_true_eq] at hv
  exact ⟨hv.2, hv.1.1, hv.1.2⟩

theorem hline_cons (k v : Bytes) (hk : goodNameB k = true) :
    ∃ b t2, hline (k, v) = b :: t2 ∧ isSpaceByte b = false := by
  obtain ⟨hne, _, _, _, hsp⟩ := goodName_facts k hk
  rcases k with _ | ⟨b, t⟩
  · exact absurd rfl hne
  · exact ⟨b, t ++ [58, 32] ++ v ++ nlCRLF,
      by simp [hline, List.append_assoc], hsp b (List.mem_cons_self b t)⟩

theorem valueMatch_hline_none (k v : Bytes) (hk : goodNameB k = true) :
    valueMatch (hline (k, v)) = none := by
  obtain ⟨b, t2, hshape, hb⟩ := hline_cons k v hk
  rw [hshape]
  exact valueMatch_head_nonspace b t2 hb

theorem isLineB_of_body (body : Bytes) (hb : body.contains 10 = false) :
    isLineB (body ++ [10]) = true := by
  simp only [isLineB, Bool.and_eq_true, Bool.not_eq_true',
    List.isEmpty_eq_false, decide_eq_true_eq]
  refine ⟨⟨by simp, ?_⟩, ?_⟩
  · rw [List.getLast?_concat]
  · rw [List.dropLast_concat]
    exact hb

theorem isLineB_hline (k v : Bytes) (hk : goodNameB k = true)
    (hv : goodValueB v = true) : isLineB (hline (k, v)) = true := by
  obtain ⟨_, _, hk10, _, _⟩ := goodName_facts k hk
  obtain ⟨_, hv10, _⟩ := goodValue_facts v hv
  have hshape : hline (k, v) = (k ++ [58, 32] ++ v ++ [13]) ++ [10] := by
    simp [hline, nlCRLF, List.append_assoc]
  rw [hshape]
  apply isLineB_of_body
  have h1 : (10 : Nat) ∉ k := by simpa using hk10
  have h2 : (10 : Nat) ∉ v := by simpa using hv10
  simp only [List.append_assoc]
  simp [h1, h2]

theorem takeLineLim_cons_none (b : Nat) (t : Bytes) :
    takeLineLim (b :: t) none = if b = 10 then [10] else b :: takeLineLim t none :=
  rfl

theorem valueMatch_firstline_none (tailB : Bytes) (h : NextOk tailB) :
    valueMatch (takeLineLim tailB none) = none := by
  rcases h with ⟨b, t, hshape, hb⟩ | ⟨t, hshape⟩
  · subst hshape
    have hb10 : b ≠ 10 := by
      intro hc
      subst hc
      simp [isSpaceByte] at hb
    rw [takeLineLim_cons_none, if_neg hb10]
    exact valueMatch_head_nonspace b _ hb
  · subst hshape
    have h2 : takeLineLim (13 :: 10 :: t) none = [13, 10] := by
      rw [takeLineLim_cons_none, if_neg (by omega), takeLineLim_cons_none,
        if_pos rfl]
    rw [h2]
    decide

theorem joinSpace_single (v : Bytes) : joinSpace [v] = v := by
  simp [joinSpace, List.intercalate, List.intersperse]

theorem goodValueB_natToDec (n : Nat) : goodValueB (natToDec n) = true := by
  obtain ⟨hne, hall, _⟩ := natToDecAux_spec (n + 1) n (by omega)
  rw [List.all_eq_true] at hall
  have hd : ∀ b ∈ natToDec n, 48 ≤ b ∧ b ≤ 57 := by
    intro b hb
    have := hall b hb
    simpa [isDigitByte] using this
  have hnospace : ∀ b ∈ natToDec n, isSpaceByte b = false := by
    intro b hb
    have := hd b hb
    simp only [isSpaceByte, Bool.or_eq_false_iff, decide_eq_false_iff_not]
    omega
  simp only [goodValueB, Bool.and_eq_true, Bool.not_eq_true',
    decide_eq_true_eq]
  refine ⟨⟨?_, ?_⟩, strip_no_space _ hnospace⟩
  · simpa using fun hmem => by have := hd 10 hmem; omega
  · simpa using fun hmem => by have := hd 13 hmem; omega

theorem filter_plain_headers (hs : List (Bytes × Bytes))
    (h : hs.all (fun kv => wfPair kv && plainName kv.1) = true) :
    hs.filter (fun kv =>
        decide (kv.1 ≠ wCONTENT_TYPE ∧ kv.1 ≠ wCONTENT_LENGTH)) = hs := by
  rw [List.filter_eq_self]
  intro kv hkv
  rw [List.all_eq_true] at h
  have := h kv hkv
  simp only [wfPair, plainName, Bool.and_eq_true, Bool.not_eq_true'] at this
  obtain ⟨_, hct, hcl⟩ := this
  simp only [decide_eq_true_eq]
  constructor
  · intro hc
    rw [hc] at hct
    simp [ciEq] at hct
  · intro hc
    rw [hc] at hcl
    simp [ciEq] at hcl

theorem headerPhase_step (k v tailB : Bytes) (s : RecordStream)
    (fuel : Nat) (hdrs : List (Bytes × Bytes)) (clen : Int)
    (errs : List PError)
    (hk : goodNameB k = true) (hv : goodValueB v = true)
    (heoc : s.bytes_to_eoc = none)
    (hrest : s.fh.rest = hline (k, v) ++ tailB)
    (hnext : NextOk tailB)
    (hfuel : s.fh.rest.length < fuel) :
    ∃ m s1, s1.fh.rest = tailB ∧ s1.bytes_to_eoc = none ∧
      s1.fh.rest.length < m ∧ m < fuel ∧
      headerPhase fuel s hdrs clen errs =
        (if ciEq k wCONTENT_TYPE then
          headerPhase m s1 (hdrs ++ [(k, v)]) clen
            (if v ≠ [] then errs else errs ++ [⟨"invalid header", [k, v]⟩])
        else if ciEq k wCONTENT_LENGTH then
          (match pyInt v with
           | some n => headerPhase m s1 (hdrs ++ [(k, v)]) n errs
           | none => headerPhase m s1 (hdrs ++ [(k, v)]) clen
               (errs ++ [⟨"invalid header", [k, v]⟩]))
        else headerPhase m s1 (hdrs ++ [(k, v)]) clen errs) := by
  obtain ⟨hb, ht2, hshape, hbsp⟩ := hline_cons k v hk
  have hlpos : 1 ≤ (hline (k, v)).length := by
    rw [hshape]
    simp
  rcases fuel with _ | m
  · omega
  have hrl : s.readline none =
      (hline (k, v), ⟨⟨tailB, s.fh.told + (hline (k, v)).length⟩, none⟩) :=
    readline_isLine s _ tailB (isLineB_hline k v hk hv) hrest heoc
  set s1a : RecordStream :=
    ⟨⟨tailB, s.fh.told + (hline (k, v)).length⟩, none⟩ with hs1a
  refine ⟨m, s1a, rfl, rfl, ?_, by omega, ?_⟩
  · rw [hrest] at hfuel
    simp only [List.length_append] at hfuel
    show tailB.length < m
    omega
  have hvm : valueMatch (takeLineLim tailB none) = none :=
    valueMatch_firstline_none tailB hnext
  have hne : ¬(hline (k, v) = [] ∨ nlMatch (hline (k, v)) = true) := by
    rw [nlMatch_hline_false k v hk, hshape]
    simp
  obtain ⟨_, _, _, _, hsp⟩ := goodName_facts k hk
  have hstripk : stripBytes k = k := strip_no_space k hsp
  obtain ⟨hstripv, _, _⟩ := goodValue_facts v hv
  have hrl2 : s1a.readline none = (takeLineLim tailB none,
      ⟨⟨tailB.drop (takeLineLim tailB none).length,
        s.fh.told + (hline (k, v)).length + (takeLineLim tailB none).length⟩,
        none⟩) := rfl
  show headerPhase (m + 1) s hdrs clen errs = _
  rw [headerPhase]
  rw [hrl]
  dsimp only
  rw [headerLoop, if_neg hne, headerMatch_hline k v hk]
  dsimp only
  rw [if_pos rfl, hstripk, hstripv, hrl2]
  dsimp only
  rw [contLoop_nomatch m _ _ _ _ hvm]
  dsimp only
  rw [joinSpace_single]
  have hback : ∀ (hd : List (Bytes × Bytes)) (c : Int) (e : List PError),
      headerPhase m s1a hd c e =
        headerLoop m
          ⟨⟨tailB.drop (takeLineLim tailB none).length,
            s.fh.told + (hline (k, v)).length +
              (takeLineLim tailB none).length⟩, none⟩
          (takeLineLim tailB none) hd c e := fun _ _ _ => rfl
  by_cases hct : ciEq k wCONTENT_TYPE = true
  · rw [if_pos hct, if_pos hct, hback]
  · rw [if_neg hct, if_neg hct]
    by_cases hcl : ciEq k wCONTENT_LENGTH = true
    · rw [if_pos hcl, if_pos hcl]
      cases hpi : pyInt v with
      | some n =>
        dsimp only
        rw [hback]
      | none => rw [hback]
    · rw [if_neg hcl, if_neg hcl, hback]

theorem NextOk_hlBytes (hs : List (Bytes × Bytes)) (tailB : Bytes)
    (h : ∀ kv ∈ hs, goodNameB kv.1 = true)
    (hnext : NextOk tailB) : NextOk (hlBytes hs ++ tailB) := by
  cases hs with
  | nil => simpa [hlBytes] using hnext
  | cons kv tl =>
    obtain ⟨k2, v2⟩ := kv
    have hk2 : goodNameB k2 = true := h (k2, v2) (List.mem_cons_self _ _)
    obtain ⟨b, t2, hshape, hb⟩ := hline_cons k2 v2 hk2
    left
    refine ⟨b, t2 ++ (hlBytes tl ++ tailB), ?_, hb⟩
    have : hlBytes ((k2, v2) :: tl) = hline (k2, v2) ++ hlBytes tl := by
      simp [hlBytes]
    rw [this, hshape]
    simp

theorem headerPhase_plain (hs : List (Bytes × Bytes)) :
    ∀ (s : RecordStream) (fuel : Nat) (hdrs : List (Bytes × Bytes))
      (clen : Int) (errs : List PError) (tailB : Bytes),
      hs.all (fun kv => wfPair kv && plainName kv.1) = true →
      s.bytes_to_eoc = none →
      s.fh.rest = hlBytes hs ++ tailB →
      NextOk tailB →
      s.fh.rest.length < fuel →
      ∃ m s1, s1.fh.rest = tailB ∧ s1.bytes_to_eoc = none ∧
        s1.fh.rest.length < m ∧ m ≤ fuel ∧
        headerPhase fuel s hdrs clen errs
          = headerPhase m s1 (hdrs ++ hs) clen errs := by
  induction hs with
  | nil =>
    intro s fuel hdrs clen errs tailB hall heoc hrest hnext hfuel
    refine ⟨fuel, s, ?_, heoc, hfuel, le_refl fuel, by simp⟩
    simpa [hlBytes] using hrest
  | cons kv tl ih =>
    intro s fuel hdrs clen errs tailB hall heoc hrest hnext hfuel
    obtain ⟨k, v⟩ := kv
    rw [List.all_cons, Bool.and_eq_true] at hall
    obtain ⟨hhead, htl⟩ := hall
    simp only [wfPair, plainName, Bool.and_eq_true, Bool.not_eq_true'] at hhead
    obtain ⟨⟨hk, hv⟩, hct, hcl⟩ := hhead
    have hrest2 : s.fh.rest = hline (k, v) ++ (hlBytes tl ++ tailB) := by
      rw [hrest]
      simp [hlBytes]
    have hnext2 : NextOk (hlBytes tl ++ tailB) := by
      refine NextOk_hlBytes tl tailB ?_ hnext
      intro kv hkv
      rw [List.all_eq_true] at htl
      have := htl kv hkv
      simp only [wfPair, Bool.and_eq_true] at this
      exact this.1.1
    obtain ⟨m, s1, hs1rest, hs1eoc, hs1len, hmlt, heq⟩ :=
      headerPhase_step k v (hlBytes tl ++ tailB) s fuel hdrs clen errs
        hk hv heoc hrest2 hnext2 hfuel
    rw [heq, if_neg (by simp [hct]), if_neg (by simp [hcl])]
    obtain ⟨m2, s2, h2rest, h2eoc, h2len, h2le, heq2⟩ :=
      ih s1 m (hdrs ++ [(k, v)]) clen errs tailB htl hs1eoc
        (by rw [hs1rest]) hnext hs1len
    refine ⟨m2, s2, h2rest, h2eoc, h2len, by omega, ?_⟩
    rw [heq2]
    simp

theorem headerPhase_blank (s : RecordStream) (fuel : Nat)
    (hdrs : List (Bytes × Bytes)) (clen : Int) (errs : List PError)
    (rest2 : Bytes) (heoc : s.bytes_to_eoc = none)
    (hrest : s.fh.rest = 13 :: 10 :: rest2) (hfuel : 0 < fuel) :
    headerPhase fuel s hdrs clen errs =
      some (hdrs, clen, errs, ⟨⟨rest2, s.fh.told + 2⟩, none⟩) := by
  rcases fuel with _ | m
  · omega
  have hrl : s.readline none = ([13, 10], ⟨⟨rest2, s.fh.told + 2⟩, none⟩) := by
    have h2 : takeLineLim (13 :: 10 :: rest2) none = [13, 10] := by
      rw [takeLineLim_cons_none, if_neg (by omega), takeLineLim_cons_none,
        if_pos rfl]
    simp only [RecordStream.readline, PyFile.readline, heoc, hrest, h2]
    simp
  rw [headerPhase]
  rw [hrl]
  dsimp only
  rw [headerLoop, if_pos (by right; decide)]

/-! ## Claim theorems: the bounded stream reader -/

/-- C3.  With `bytes_to_eoc` set to a byte count `e`, every `read` and
`readline` call (with a non-negative count when one is given) returns at
most `e` bytes, consumes from the underlying source exactly the bytes it
returns, and decrements the counter by exactly that number; once the
counter is zero, both calls return the empty byte string and leave the
stream — including the not-yet-consumed terminator bytes — untouched. -/
theorem bounded_reader_invariants (s : RecordStream) (e : Int)
    (he : s.bytes_to_eoc = some e) (he0 : 0 ≤ e) :
    (∀ n : Option Int, (∀ c, n = some c → 0 ≤ c) →
      ((s.read n).1.length : Int) ≤ e ∧
      (s.read n).2.fh.rest.length + (s.read n).1.length = s.fh.rest.length ∧
      (s.read n).2.fh.told = s.fh.told + (s.read n).1.length ∧
      (s.read n).2.bytes_to_eoc = some (e - (s.read n).1.length)) ∧
    (∀ m : Option Int, (∀ c, m = some c → 0 ≤ c) →
      ((s.readline m).1.length : Int) ≤ e ∧
      (s.readline m).2.fh.rest.length + (s.readline m).1.length
        = s.fh.rest.length ∧
      (s.readline m).2.fh.told = s.fh.told + (s.readline m).1.length ∧
      (s.readline m).2.bytes_to_eoc = some (e - (s.readline m).1.length)) ∧
    (e = 0 →
      (∀ n : Option Int, (∀ c, n = some c → 0 ≤ c) → s.read n = ([], s)) ∧
      (∀ m : Option Int, (∀ c, m = some c → 0 ≤ c) → s.readline m = ([], s))) := by
  obtain ⟨⟨rest, told⟩, eoc⟩ := s
  simp only [RecordStream.bytes_to_eoc] at he
  subst he
  refine ⟨?_, ?_, ?_⟩
  · intro n hn
    have hsize : ∃ rs : Int, 0 ≤ rs ∧ rs ≤ e ∧
        (RecordStream.read ⟨⟨rest, told⟩, some e⟩ n)
          = (rest.take rs.toNat,
             ⟨⟨rest.drop (rest.take rs.toNat).length,
               told + (rest.take rs.toNat).length⟩,
              some (e - (rest.take rs.toNat).length)⟩) := by
      cases n with
      | none =>
        refine ⟨e, he0, le_refl e, ?_⟩
        simp [RecordStream.read, RecordStream.rawRead, PyFile.read, not_lt.mpr he0]
      | some c =>
        have hc : 0 ≤ c := hn c rfl
        have hmin : (0:Int) ≤ min c e := le_min hc he0
        refine ⟨min c e, hmin, min_le_right c e, ?_⟩
        simp [RecordStream.read, RecordStream.rawRead, PyFile.read, not_lt.mpr hmin]
    obtain ⟨rs, h0, hle, heq⟩ := hsize
    rw [heq]
    dsimp only
    have hlen : (rest.take rs.toNat).length ≤ rs.toNat := by
      simp [List.length_take]
    have hlen2 : (rest.take rs.toNat).length ≤ rest.length := by
      simp [List.length_take]
    refine ⟨by omega, ?_, rfl, rfl⟩
    simp only [List.length_drop]
    omega
  · intro m hm
    have hsize : ∃ k : Nat, (k : Int) ≤ e ∧
        (RecordStream.readline ⟨⟨rest, told⟩, some e⟩ m)
          = (takeLineLim rest (some k),
             ⟨⟨rest.drop (takeLineLim rest (some k)).length,
               told + (takeLineLim rest (some k)).length⟩,
              some (e - (takeLineLim rest (some k)).length)⟩) := by
      cases m with
      | none =>
        refine ⟨e.toNat, by omega, ?_⟩
        simp [RecordStream.readline, PyFile.readline, not_lt.mpr he0]
      | some c =>
        have hc : 0 ≤ c := hm c rfl
        have hmin : (0:Int) ≤ min c e := le_min hc he0
        refine ⟨(min c e).toNat, by omega, ?_⟩
        simp [RecordStream.readline, PyFile.readline, not_lt.mpr hmin]
    obtain ⟨k, hke, heq⟩ := hsize
    rw [heq]
    dsimp only
    have hlen : (takeLineLim rest (some k)).length ≤ k := takeLineLim_le_lim rest k
    have hlen2 : (takeLineLim rest (some k)).length ≤ rest.length :=
      takeLineLim_length_le rest (some k)
    refine ⟨by omega, ?_, rfl, rfl⟩
    simp only [List.length_drop]
    omega
  · intro he0'
    subst he0'
    constructor
    · intro n hn
      cases n with
      | none =>
        simp [RecordStream.read, RecordStream.rawRead, PyFile.read]
      | some c =>
        have hc : 0 ≤ c := hn c rfl
        have hmin : min c (0:Int) = 0 := min_eq_right hc
        simp [RecordStream.read, RecordStream.rawRead, PyFile.read, hmin]
    · intro m hm
      cases m with
      | none =>
        simp [RecordStream.readline, PyFile.readline, takeLineLim]
      | some c =>
        have hc : 0 ≤ c := hm c rfl
        have hmin : min c (0:Int) = 0 := min_eq_right hc
        simp [RecordStream.readline, PyFile.readline, hmin, takeLineLim]

/-- Witness for C3 at a concrete bounded stream. -/
theorem bounded_reader_invariants_witness :
    ((⟨mkFile (bs "abcdef"), some 3⟩ : RecordStream).bytes_to_eoc = some 3
      ∧ (0:Int) ≤ 3) ∧
    (∀ n : Option Int, (∀ c, n = some c → 0 ≤ c) →
      (((⟨mkFile (bs "abcdef"), some 3⟩ : RecordStream).read n).1.length : Int) ≤ 3 ∧
      ((⟨mkFile (bs "abcdef"), some 3⟩ : RecordStream).read n).2.fh.rest.length
          + ((⟨mkFile (bs "abcdef"), some 3⟩ : RecordStream).read n).1.length
        = (⟨mkFile (bs "abcdef"), some 3⟩ : RecordStream).fh.rest.length ∧
      ((⟨mkFile (bs "abcdef"), some 3⟩ : RecordStream).read n).2.fh.told
        = (⟨mkFile (bs "abcdef"), some 3⟩ : RecordStream).fh.told
          + ((⟨mkFile (bs "abcdef"), some 3⟩ : RecordStream).read n).1.length ∧
      ((⟨mkFile (bs "abcdef"), some 3⟩ : RecordStream).read n).2.bytes_to_eoc
        = some ((3:Int)
            - (((⟨mkFile (bs "abcdef"), some 3⟩ : RecordStream).read n).1.length : Int))) :=
  ⟨⟨rfl, by decide⟩,
    (bounded_reader_invariants (⟨mkFile (bs "abcdef"), some 3⟩ : RecordStream) 3
      rfl (by decide)).1⟩

/-- C2.  For a stream positioned at a parsed record's payload with
`bytes_to_eoc` set to the declared content length `L`, and the payload's
`L` bytes followed by the record terminator and the next record's bytes,
resolving the record's content returns exactly the `L` payload bytes and
leaves the stream position immediately before the record terminator:
the remaining bytes are exactly the terminator plus the next record,
none of which was consumed. -/
theorem bounded_content_read (r : WRecord) (s : RecordStream) (L : Nat)
    (payload nextBytes : Bytes)
    (hc : r.content = none)
    (he : s.bytes_to_eoc = some (L : Int))
    (hrest : s.fh.rest = payload ++ ([13, 10, 13, 10] ++ nextBytes))
    (hlen : payload.length = L) :
    (r.resolveContent s).1 = (r.get_header wCONTENT_TYPE, some payload) ∧
    (r.resolveContent s).1.2.map List.length = some L ∧
    (r.resolveContent s).2.2.fh.rest = [13, 10, 13, 10] ++ nextBytes ∧
    (r.resolveContent s).2.2.fh.told = s.fh.told + L ∧
    (r.resolveContent s).2.2.bytes_to_eoc = some 0 := by
  obtain ⟨⟨rest, told⟩, eoc⟩ := s
  simp only at hrest he
  subst hrest
  subst he
  have hnn : ¬ ((L : Int) < 0) := by omega
  have htoNat : (L : Int).toNat = payload.length := by omega
  have hread : (RecordStream.read ⟨⟨payload ++ ([13,10,13,10] ++ nextBytes), told⟩, some (L : Int)⟩ none)
      = (payload, ⟨⟨[13, 10, 13, 10] ++ nextBytes, told + L⟩, some 0⟩) := by
    simp only [RecordStream.read, RecordStream.rawRead, PyFile.read, if_neg hnn,
      htoNat, List.take_left, List.drop_left]
    simp [hlen]
  simp only [WRecord.resolveContent, hc, hread]
  simp [hlen]


/-- Witness for C2 at a concrete record and stream. -/
theorem bounded_content_read_witness :
    ((⟨VERSION10, [], none, []⟩ : WRecord).content = none ∧
      (⟨⟨bs "hello\r\n\r\nWARC/1.0\r\n", 60⟩, some 5⟩
        : RecordStream).bytes_to_eoc = some ((5 : Nat) : Int) ∧
      (⟨⟨bs "hello\r\n\r\nWARC/1.0\r\n", 60⟩, some 5⟩
        : RecordStream).fh.rest = bs "hello" ++ ([13, 10, 13, 10] ++ bs "WARC/1.0\r\n") ∧
      (bs "hello").length = 5) ∧
    (((⟨VERSION10, [], none, []⟩ : WRecord).resolveContent
        (⟨⟨bs "hello\r\n\r\nWARC/1.0\r\n", 60⟩, some 5⟩ : RecordStream)).1
      = ((⟨VERSION10, [], none, []⟩ : WRecord).get_header wCONTENT_TYPE,
         some (bs "hello")) ∧
     ((⟨VERSION10, [], none, []⟩ : WRecord).resolveContent
        (⟨⟨bs "hello\r\n\r\nWARC/1.0\r\n", 60⟩, some 5⟩ : RecordStream)).1.2.map
          List.length = some 5 ∧
     ((⟨VERSION10, [], none, []⟩ : WRecord).resolveContent
        (⟨⟨bs "hello\r\n\r\nWARC/1.0\r\n", 60⟩, some 5⟩ : RecordStream)).2.2.fh.rest
       = [13, 10, 13, 10] ++ bs "WARC/1.0\r\n" ∧
     ((⟨VERSION10, [], none, []⟩ : WRecord).resolveContent
        (⟨⟨bs "hello\r\n\r\nWARC/1.0\r\n", 60⟩, some 5⟩ : RecordStream)).2.2.fh.told
       = (⟨⟨bs "hello\r\n\r\nWARC/1.0\r\n", 60⟩, some 5⟩ : RecordStream).fh.told + 5 ∧
     ((⟨VERSION10, [], none, []⟩ : WRecord).resolveContent
        (⟨⟨bs "hello\r\n\r\nWARC/1.0\r\n", 60⟩, some 5⟩ : RecordStream)).2.2.bytes_to_eoc
       = some 0) :=
  ⟨⟨rfl, rfl, by decide, by decide⟩,
    bounded_content_read (⟨VERSION10, [], none, []⟩ : WRecord)
      (⟨⟨bs "hello\r\n\r\nWARC/1.0\r\n", 60⟩, some 5⟩ : RecordStream) 5
      (bs "hello") (bs "WARC/1.0\r\n") rfl rfl (by decide) (by decide)⟩

theorem skipLoopF_ok (fuel : Nat) (f : PyFile) (e : Int)
    (h0 : 0 ≤ e) (hfuel : e.toNat < fuel) (hle : e ≤ (f.rest.length : Int)) :
    skipLoopF fuel f e = .ok (⟨f.rest.drop e.toNat, f.told + e.toNat⟩, 0) := by
  induction fuel generalizing f e with
  | zero => omega
  | succ fuel ih =>
    rw [skipLoopF]
    by_cases hpos : 0 < e
    · rw [if_pos hpos]
      have hCH : (0:Int) < CHUNK_SIZE := by decide
      have hrs0 : 0 < min CHUNK_SIZE e := lt_min_iff.mpr ⟨hCH, hpos⟩
      have hrse : min CHUNK_SIZE e ≤ e := min_le_right _ _
      generalize hm : min CHUNK_SIZE e = m
      rw [hm] at hrs0 hrse
      have hcast : ((m.toNat : Int)) = m := Int.toNat_of_nonneg (le_of_lt hrs0)
      have htake : ((f.rest.take m.toNat).length) = m.toNat := by
        simp only [List.length_take]
        omega
      simp only [PyFile.read, if_neg (not_lt.mpr (le_of_lt hrs0)), htake, hcast]
      rw [if_neg (lt_irrefl _)]
      have hrec := ih ⟨f.rest.drop m.toNat, f.told + m.toNat⟩ (e - m)
        (by omega) (by omega) (by simp only [List.length_drop]; omega)
      simp only at hrec
      rw [hrec]
      have hdd : (f.rest.drop m.toNat).drop (e - m).toNat = f.rest.drop e.toNat := by
        rw [List.drop_drop]
        congr 1
        omega
      rw [hdd]
      have hsum : f.told + m.toNat + (e - m).toNat = f.told + e.toNat := by omega
      rw [hsum]
    · rw [if_neg hpos]
      have he0 : e = 0 := by omega
      subst he0
      simp

theorem skipLoopF_err (fuel : Nat) (f : PyFile) (e : Int)
    (hshort : (f.rest.length : Int) < e) (hfuel : e.toNat < fuel) :
    skipLoopF fuel f e = .error "expected bytes but read fewer" := by
  induction fuel generalizing f e with
  | zero => omega
  | succ fuel ih =>
    rw [skipLoopF]
    have hpos : 0 < e := by omega
    rw [if_pos hpos]
    have hCH : (0:Int) < CHUNK_SIZE := by decide
    have hrs0 : 0 < min CHUNK_SIZE e := lt_min_iff.mpr ⟨hCH, hpos⟩
    have hrse : min CHUNK_SIZE e ≤ e := min_le_right _ _
    generalize hm : min CHUNK_SIZE e = m
    rw [hm] at hrs0 hrse
    have hcast : ((m.toNat : Int)) = m := Int.toNat_of_nonneg (le_of_lt hrs0)
    simp only [PyFile.read, if_neg (not_lt.mpr (le_of_lt hrs0))]
    by_cases hsh : f.rest.length < m.toNat
    · have htake : ((f.rest.take m.toNat).length) = f.rest.length := by
        simp only [List.length_take]
        omega
      rw [if_pos (by rw [htake]; omega)]
    · have htake : ((f.rest.take m.toNat).length) = m.toNat := by
        simp only [List.length_take]
        omega
      rw [if_neg (by rw [htake, hcast]; exact lt_irrefl _)]
      rw [htake]
      exact ih _ _ (by simp only [List.length_drop]; omega) (by omega)

/-- C4.  With `bytes_to_eoc` set to a positive count `e`, skipping to the
end of content drains exactly `e` bytes from the stream when they are
available, and raises a hard error — rather than silently ignoring the
shortfall — when the underlying source holds fewer than `e` bytes. -/
theorem skip_to_end_exact (s : RecordStream) (e : Int)
    (he : s.bytes_to_eoc = some e) (hpos : 0 < e) :
    (e ≤ (s.fh.rest.length : Int) →
      s.skipToEoc = .ok ⟨⟨s.fh.rest.drop e.toNat, s.fh.told + e.toNat⟩, some 0⟩) ∧
    ((s.fh.rest.length : Int) < e →
      s.skipToEoc = .error "expected bytes but read fewer") := by
  constructor
  · intro hle
    simp only [RecordStream.skipToEoc, he]
    rw [skipLoopF_ok (e.toNat + 1) s.fh e (by omega) (by omega) hle]
    rfl
  · intro hshort
    simp only [RecordStream.skipToEoc, he]
    rw [skipLoopF_err (e.toNat + 1) s.fh e hshort (by omega)]
    rfl

/-- Witness for C4 at concrete streams, one long enough and one short. -/
theorem skip_to_end_exact_witness :
    ((⟨mkFile (bs "abcd"), some 3⟩ : RecordStream).bytes_to_eoc = some 3 ∧
      (0:Int) < 3 ∧
      (3:Int) ≤ ((⟨mkFile (bs "abcd"), some 3⟩ : RecordStream).fh.rest.length : Int) ∧
      (⟨mkFile (bs "abcd"), some 3⟩ : RecordStream).skipToEoc
        = .ok ⟨⟨(bs "abcd").drop ((3:Int).toNat), 0 + (3:Int).toNat⟩, some 0⟩) ∧
    ((⟨mkFile (bs "ab"), some 3⟩ : RecordStream).bytes_to_eoc = some 3 ∧
      (((⟨mkFile (bs "ab"), some 3⟩ : RecordStream).fh.rest.length : Int) < 3) ∧
      (⟨mkFile (bs "ab"), some 3⟩ : RecordStream).skipToEoc
        = .error "expected bytes but read fewer") :=
  ⟨⟨rfl, by decide, by decide,
     (skip_to_end_exact (⟨mkFile (bs "abcd"), some 3⟩ : RecordStream) 3 rfl
       (by decide)).1 (by decide)⟩,
   ⟨rfl, by decide,
     (skip_to_end_exact (⟨mkFile (bs "ab"), some 3⟩ : RecordStream) 3 rfl
       (by decide)).2 (by decide)⟩⟩

/-! ## Claim theorems: header accessors and validation -/

theorem getHeaderIn_append (xs ys : List (Bytes × Bytes)) (name : Bytes) :
    getHeaderIn (xs ++ ys) name
      = match getHeaderIn xs name with
        | some v => some v
        | none => getHeaderIn ys name := by
  induction xs with
  | nil => simp [getHeaderIn]
  | cons kv t ih =>
    obtain ⟨k, v⟩ := kv
    by_cases h : lowerBytes name = lowerBytes k
    · simp [getHeaderIn, h]
    · simp [getHeaderIn, h, ih]

theorem set_header_case_aux (hs : List (Bytes × Bytes)) (name value k₀ v₀ : Bytes)
    (hfirst : hs.find? (fun kv =>
        decide (kv.1 ≠ name) && decide (lowerBytes name = lowerBytes kv.1))
      = some (k₀, v₀)) :
    getHeaderIn ((hs.filter (fun kv => decide (kv.1 ≠ name))) ++ [(name, value)]) name
      = some v₀ := by
  induction hs with
  | nil => simp at hfirst
  | cons kv t ih =>
    obtain ⟨k, v⟩ := kv
    cases hp : (decide ((k, v).1 ≠ name)
        && decide (lowerBytes name = lowerBytes (k, v).1)) with
    | true =>
      simp only [List.find?, hp, Option.some.injEq, Prod.mk.injEq] at hfirst
      obtain ⟨hk0, hv0⟩ := hfirst
      subst hk0
      subst hv0
      simp only [Bool.and_eq_true, decide_eq_true_eq] at hp
      rw [List.filter_cons_of_pos (by simpa using hp.1)]
      simp [getHeaderIn, hp.2]
    | false =>
      simp only [List.find?, hp] at hfirst
      have ht := ih hfirst
      simp only [Bool.and_eq_true, decide_eq_true_eq] at hp
      by_cases hk : k = name
      · rw [List.filter_cons_of_neg (by simp [hk])]
        exact ht
      · have hlow : ¬ lowerBytes name = lowerBytes k := by
          intro hl
          rw [Bool.and_eq_false_iff] at hp
          rcases hp with hp | hp <;> simp [hk, hl] at hp
        rw [List.filter_cons_of_pos (by simpa using hk)]
        simpa [getHeaderIn, hlow] using ht

/-- C9.  `set_header` removes only byte-for-byte matches of the name and
appends the new pair, so when the record already holds a header whose
name differs from `name` only in ASCII case — witnessed by the first such
pair `(k₀, v₀)` — a later `get_header(name)` lookup finds the old
differently-cased header's value `v₀`, not the newly set `value`. -/
theorem set_header_case_sensitivity (r : WRecord) (name value k₀ v₀ : Bytes)
    (hfirst : r.headers.find? (fun kv =>
        decide (kv.1 ≠ name) && decide (lowerBytes name = lowerBytes kv.1))
      = some (k₀, v₀)) :
    (r.set_header name value).get_header name = some v₀ ∧
    (k₀, v₀) ∈ r.headers ∧ k₀ ≠ name ∧ lowerBytes name = lowerBytes k₀ := by
  have hmem := List.mem_of_find?_eq_some hfirst
  have hprops := List.find?_some hfirst
  simp only [Bool.and_eq_true, decide_eq_true_eq] at hprops
  exact ⟨set_header_case_aux r.headers name value k₀ v₀ hfirst, hmem,
    hprops.1, hprops.2⟩

/-- Witness for C9: setting `Content-Length` on a record that spells the
header `content-length` leaves the old value visible to `get_header`. -/
theorem set_header_case_sensitivity_witness :
    ((⟨VERSION10, [(bs "content-length", bs "10")], none, []⟩ : WRecord).headers.find?
        (fun kv => decide (kv.1 ≠ wCONTENT_LENGTH)
          && decide (lowerBytes wCONTENT_LENGTH = lowerBytes kv.1))
      = some (bs "content-length", bs "10")) ∧
    (((⟨VERSION10, [(bs "content-length", bs "10")], none, []⟩ : WRecord).set_header
        wCONTENT_LENGTH (bs "5")).get_header wCONTENT_LENGTH = some (bs "10") ∧
      (bs "content-length", bs "10")
        ∈ (⟨VERSION10, [(bs "content-length", bs "10")], none, []⟩ : WRecord).headers ∧
      bs "content-length" ≠ wCONTENT_LENGTH ∧
      lowerBytes wCONTENT_LENGTH = lowerBytes (bs "content-length")) :=
  ⟨by decide,
    set_header_case_sensitivity
      (⟨VERSION10, [(bs "content-length", bs "10")], none, []⟩ : WRecord)
      wCONTENT_LENGTH (bs "5") (bs "content-length") (bs "10") (by decide)⟩

/-- C7.  `content_length` on a record with unresolved content and a
declared, parseable `Content-Length` header returns the header's integer
value with the record and stream untouched — no payload read; on a
record with resolved content it returns the resolved buffer's byte
length, also without touching the stream. -/
theorem content_length_lazy (r : WRecord) (s : RecordStream) :
    (∀ v i, r.content = none → r.get_header wCONTENT_LENGTH = some v →
      pyInt v = some i → r.content_length s = (some i, r, s)) ∧
    (∀ ct buf, r.content = some (ct, some buf) →
      r.content_length s = (some ((buf.length : Int)), r, s)) := by
  constructor
  · intro v i hc hv hi
    simp [WRecord.content_length, hc, hv, hi]
  · intro ct buf hc
    simp [WRecord.content_length, WRecord.resolveContent, hc]

/-- Witness for C7 at an unresolved and at a resolved record. -/
theorem content_length_lazy_witness :
    (((⟨VERSION10, [(wCONTENT_LENGTH, bs "7")], none, []⟩ : WRecord).content = none ∧
      (⟨VERSION10, [(wCONTENT_LENGTH, bs "7")], none, []⟩ : WRecord).get_header
        wCONTENT_LENGTH = some (bs "7") ∧
      pyInt (bs "7") = some 7 ∧
      (⟨VERSION10, [(wCONTENT_LENGTH, bs "7")], none, []⟩ : WRecord).content_length
          (mkStream (bs "abc"))
        = (some 7, ⟨VERSION10, [(wCONTENT_LENGTH, bs "7")], none, []⟩,
           mkStream (bs "abc"))) ∧
    ((⟨VERSION10, [], some (none, some (bs "hello")), []⟩ : WRecord).content_length
        (mkStream (bs "abc"))
      = (some ((5:Nat) : Int), ⟨VERSION10, [], some (none, some (bs "hello")), []⟩,
         mkStream (bs "abc")))) :=
  ⟨⟨rfl, by decide, by decide,
    (content_length_lazy (⟨VERSION10, [(wCONTENT_LENGTH, bs "7")], none, []⟩ : WRecord)
        (mkStream (bs "abc"))).1 (bs "7") 7 rfl (by decide) (by decide)⟩,
   by
    have := (content_length_lazy
        (⟨VERSION10, [], some (none, some (bs "hello")), []⟩ : WRecord)
        (mkStream (bs "abc"))).2 none (bs "hello") rfl
    simpa using this⟩

/-- C6 counterexample: a record whose four mandatory fields are present
and well-formed but whose declared `Content-Length` (5) differs from its
resolved payload length (2) — the claim requires a non-empty violation
list, yet `validate` returns the empty list: the declared-versus-actual
length comparison is simply not performed. -/
theorem validate_misses_length_mismatch :
    (⟨VERSION10,
      [(wTYPE, wRESPONSE), (wID, bs "<urn:uuid:2>"),
       (wDATE, bs "2024-01-01T00:00:00Z"), (wCONTENT_LENGTH, bs "5")],
      some (some (bs "text/html"), some (bs "ab")), []⟩ : WRecord).validate = [] ∧
    (⟨VERSION10,
      [(wTYPE, wRESPONSE), (wID, bs "<urn:uuid:2>"),
       (wDATE, bs "2024-01-01T00:00:00Z"), (wCONTENT_LENGTH, bs "5")],
      some (some (bs "text/html"), some (bs "ab")), []⟩ : WRecord).get_header
        wCONTENT_LENGTH = some (bs "5") ∧
    pyInt (bs "5") = some 5 ∧
    ((bs "ab").length : Int) ≠ 5 := by
  refine ⟨by decide, by decide, by decide, by decide⟩

/-- C6 (amended).  `validate` returns a non-empty list for every record
missing the `Content-Length` header, and an empty list for every record
with no accumulated parse errors whose four mandatory fields pass the
per-field shape checks and whose type is a known non-revisit type;
the declared length is never compared against the payload length. -/
theorem validate_mandatory_fields (r : WRecord) :
    (r.get_header wCONTENT_LENGTH = none → r.validate ≠ []) ∧
    (∀ i d t c, r.errors = [] →
      r.get_header wID = some i → i ≠ [] → idCheckErrors i = [] →
      r.get_header wDATE = some d → d ≠ [] → dateCheckErrors d = [] →
      r.get_header wTYPE = some t → t ≠ [] → typeCheckErrors t = [] →
      t ≠ wREVISIT →
      r.get_header wCONTENT_LENGTH = some c → c ≠ [] → clCheckErrors c = [] →
      r.validate = []) := by
  constructor
  · intro hcl h
    have hm : (⟨"missing mandatory field", [bs "Content-Length"]⟩ : PError)
        ∈ r.validate := by
      simp [WRecord.validate, hcl]
    rw [h] at hm
    exact absurd hm (List.not_mem_nil _)
  · intro i d t c herr hi hine hie hd hdne hde ht htne hte htrev hc hcne hce
    simp [WRecord.validate, herr, hi, hine, hie, hd, hdne, hde, ht, htne, hte,
      htrev, hc, hcne, hce]

/-- Witness for C6 (amended): a record missing `Content-Length` is
flagged; a record with the four well-formed mandatory fields validates
clean. -/
theorem validate_mandatory_fields_witness :
    ((⟨VERSION10, [(wTYPE, wRESPONSE)], none, []⟩ : WRecord).get_header
        wCONTENT_LENGTH = none ∧
      (⟨VERSION10, [(wTYPE, wRESPONSE)], none, []⟩ : WRecord).validate ≠ []) ∧
    ((⟨VERSION10,
        [(wTYPE, wRESPONSE), (wID, bs "<urn:uuid:2>"),
         (wDATE, bs "2024-01-01T00:00:00Z"), (wCONTENT_LENGTH, bs "5")],
        some (some (bs "text/html"), some (bs "ab")), []⟩ : WRecord).validate = []) :=
  ⟨⟨by decide,
    (validate_mandatory_fields
      (⟨VERSION10, [(wTYPE, wRESPONSE)], none, []⟩ : WRecord)).1 (by decide)⟩,
   (validate_mandatory_fields
      (⟨VERSION10,
        [(wTYPE, wRESPONSE), (wID, bs "<urn:uuid:2>"),
         (wDATE, bs "2024-01-01T00:00:00Z"), (wCONTENT_LENGTH, bs "5")],
        some (some (bs "text/html"), some (bs "ab")), []⟩ : WRecord)).2
     (bs "<urn:uuid:2>") (bs "2024-01-01T00:00:00Z") wRESPONSE (bs "5")
     rfl (by decide) (by decide) (by decide) (by decide) (by decide) (by decide)
     (by decide) (by decide) (by decide) (by decide) (by decide) (by decide)
     (by decide)⟩

/-! ## Claim theorems: the writer / parser round trip -/

theorem getHeaderIn_skip (xs ys : List (Bytes × Bytes)) (name : Bytes)
    (h : getHeaderIn ys name = none) :
    getHeaderIn (xs ++ ys) name = getHeaderIn xs name := by
  rw [getHeaderIn_append, h]
  cases getHeaderIn xs name <;> rfl

theorem seekVersion_found (fuel : Nat) (s : RecordStream) (line : Bytes)
    (offset : Option Nat) (errs : List PError) (g : VersionGroups)
    (hne : line ≠ []) (hvm : versionMatch line = some g) (hf : 0 < fuel) :
    seekVersion fuel s line offset errs =
      (.found g (offset.map (· + g.preG.length)) errs, s) := by
  rcases fuel with _ | m
  · omega
  rw [seekVersion, if_neg hne, hvm]

theorem version_line_facts (ver : Bytes)
    (h : ver = VERSION10 ∨ ver = VERSION11 ∨ ver = VERSION17 ∨ ver = VERSION18) :
    isLineB (ver ++ [13, 10]) = true ∧
    ∃ num, versionMatch (ver ++ [13, 10]) = some ⟨[], ver, num, [13, 10]⟩ ∧
      KNOWN_VERSIONS.contains num = true := by
  rcases h with h | h | h | h <;> subst h
  · exact ⟨by decide, bs "1.0", by decide, by decide⟩
  · exact ⟨by decide, bs "1.1", by decide, by decide⟩
  · exact ⟨by decide, bs "0.17", by decide, by decide⟩
  · exact ⟨by decide, bs "0.18", by decide, by decide⟩

theorem headerPhase_ct (ctPairs : List (Bytes × Bytes)) (tailB : Bytes)
    (s : RecordStream) (fuel : Nat) (hdrs : List (Bytes × Bytes))
    (clen : Int) (errs : List PError)
    (hok : ctPairs = [] ∨ ∃ t, ctPairs = [(wCONTENT_TYPE, t)] ∧ t ≠ [] ∧
      goodValueB t = true)
    (heoc : s.bytes_to_eoc = none)
    (hrest : s.fh.rest = hlBytes ctPairs ++ tailB)
    (hnext : NextOk tailB)
    (hfuel : s.fh.rest.length < fuel) :
    ∃ m s1, s1.fh.rest = tailB ∧ s1.bytes_to_eoc = none ∧
      s1.fh.rest.length < m ∧ m ≤ fuel ∧
      headerPhase fuel s hdrs clen errs
        = headerPhase m s1 (hdrs ++ ctPairs) clen errs := by
  rcases hok with hc | ⟨t, hc, htne, htgood⟩
  · subst hc
    refine ⟨fuel, s, ?_, heoc, hfuel, le_refl _, by simp⟩
    simpa [hlBytes] using hrest
  · subst hc
    have hrest2 : s.fh.rest = hline (wCONTENT_TYPE, t) ++ tailB := by
      simpa [hlBytes] using hrest
    obtain ⟨m, s1, h1, h2, h3, h4, heq⟩ :=
      headerPhase_step wCONTENT_TYPE t tailB s fuel hdrs clen errs
        (by decide) htgood heoc hrest2 hnext hfuel
    rw [heq, if_pos (by decide), if_pos htne]
    exact ⟨m, s1, h1, h2, h3, by omega, rfl⟩

theorem read_exact (s : RecordStream) (buf tail : Bytes)
    (heoc : s.bytes_to_eoc = some (buf.length : Int))
    (hrest : s.fh.rest = buf ++ tail) :
    (s.read none).1 = buf := by
  obtain ⟨⟨rest, told⟩, eoc⟩ := s
  simp only at heoc hrest
  subst heoc
  subst hrest
  have hnn : ¬ ((buf.length : Int) < 0) := by omega
  have htoNat : ((buf.length : Int)).toNat = buf.length := by omega
  simp only [RecordStream.read, RecordStream.rawRead, PyFile.read, if_neg hnn,
    htoNat, List.take_left]

theorem getHeaderIn_none_of (ys : List (Bytes × Bytes)) (name : Bytes)
    (h : ∀ kv ∈ ys, lowerBytes name ≠ lowerBytes kv.1) :
    getHeaderIn ys name = none := by
  induction ys with
  | nil => rfl
  | cons kv tl ih =>
    obtain ⟨k, v⟩ := kv
    rw [getHeaderIn, if_neg (h (k, v) (List.mem_cons_self _ _))]
    exact ih (fun kv hkv => h kv (List.mem_cons_of_mem _ hkv))

theorem roundtrip_aux (version : Bytes) (hs ctPairs : List (Bytes × Bytes))
    (buf : Bytes) (offset : Option Nat)
    (hvl : isLineB (version ++ [13, 10]) = true)
    (num : Bytes)
    (hvm : versionMatch (version ++ [13, 10]) = some ⟨[], version, num, [13, 10]⟩)
    (hknown : KNOWN_VERSIONS.contains num = true)
    (hplain : hs.all (fun kv => wfPair kv && plainName kv.1) = true)
    (hok : ctPairs = [] ∨ ∃ t, ctPairs = [(wCONTENT_TYPE, t)] ∧ t ≠ [] ∧
      goodValueB t = true) :
    ∃ s2, warcParse (mkStream ((version ++ [13, 10]) ++ (hlBytes hs ++
        (hlBytes ctPairs ++ (hline (wCONTENT_LENGTH, natToDec buf.length) ++
          (13 :: 10 :: (buf ++ 13 :: 10 :: 13 :: 10 :: []))))))) offset none
      = some (⟨some ⟨version,
            hs ++ (ctPairs ++ [(wCONTENT_LENGTH, natToDec buf.length)]),
            none, []⟩, [], offset⟩, s2) ∧
      s2.bytes_to_eoc = some (buf.length : Int) ∧
      s2.fh.rest = buf ++ 13 :: 10 :: 13 :: 10 :: [] := by
  have hctnames : ∀ kv ∈ ctPairs, goodNameB kv.1 = true := by
    rcases hok with hc | ⟨t, hc, _, _⟩ <;> subst hc
    · intro kv hkv
      simp at hkv
    · intro kv hkv
      simp only [List.mem_singleton] at hkv
      subst hkv
      exact (by decide : goodNameB wCONTENT_TYPE = true)
  have hclname : goodNameB wCONTENT_LENGTH = true := by decide
  obtain ⟨bcl, tcl, hclshape, hbcl⟩ :=
    hline_cons wCONTENT_LENGTH (natToDec buf.length) hclname
  have hnextB : NextOk (hline (wCONTENT_LENGTH, natToDec buf.length) ++
      (13 :: 10 :: (buf ++ 13 :: 10 :: 13 :: 10 :: []))) := by
    left
    refine ⟨bcl, tcl ++ (13 :: 10 :: (buf ++ 13 :: 10 :: 13 :: 10 :: [])), ?_, hbcl⟩
    rw [hclshape]
    simp
  have hnextA : NextOk (hlBytes ctPairs ++
      (hline (wCONTENT_LENGTH, natToDec buf.length) ++
        (13 :: 10 :: (buf ++ 13 :: 10 :: 13 :: 10 :: [])))) :=
    NextOk_hlBytes ctPairs _ hctnames hnextB
  have hs1 : (mkStream ((version ++ [13, 10]) ++ (hlBytes hs ++
      (hlBytes ctPairs ++ (hline (wCONTENT_LENGTH, natToDec buf.length) ++
        (13 :: 10 :: (buf ++ 13 :: 10 :: 13 :: 10 :: []))))))).readline none
      = (version ++ [13, 10], ⟨⟨hlBytes hs ++
          (hlBytes ctPairs ++ (hline (wCONTENT_LENGTH, natToDec buf.length) ++
            (13 :: 10 :: (buf ++ 13 :: 10 :: 13 :: 10 :: [])))),
          0 + (version ++ [13, 10]).length⟩, none⟩) :=
    readline_isLine _ _ _ hvl rfl rfl
  set s1 : RecordStream := ⟨⟨hlBytes hs ++
      (hlBytes ctPairs ++ (hline (wCONTENT_LENGTH, natToDec buf.length) ++
        (13 :: 10 :: (buf ++ 13 :: 10 :: 13 :: 10 :: [])))),
      0 + (version ++ [13, 10]).length⟩, none⟩ with hs1def
  have hF1 : s1.fh.rest.length <
      parseFuel (s1.readline none).2 (s1.readline none).1 := by
    have := rs_readline_rest s1 none
    rw [parseFuel]
    omega
  obtain ⟨m1, sA, hA1, hA2, hA3, _, heq1⟩ :=
    headerPhase_plain hs s1 (parseFuel (s1.readline none).2 (s1.readline none).1)
      [] 0 [] _ hplain rfl rfl hnextA hF1
  obtain ⟨m2, sB, hB1, hB2, hB3, _, heq2⟩ :=
    headerPhase_ct ctPairs _ sA m1 ([] ++ hs) 0 [] hok hA2 hA1 hnextB hA3
  obtain ⟨m3, sC, hC1, hC2, hC3, _, heq3⟩ :=
    headerPhase_step wCONTENT_LENGTH (natToDec buf.length)
      (13 :: 10 :: (buf ++ 13 :: 10 :: 13 :: 10 :: [])) sB m2
      (([] ++ hs) ++ ctPairs) 0 [] hclname (goodValueB_natToDec _) hB2 hB1
      (Or.inr ⟨buf ++ 13 :: 10 :: 13 :: 10 :: [], rfl⟩) hB3
  rw [if_neg (by decide), if_pos (by decide), pyInt_natToDec] at heq3
  simp only [Option.pure_def, Option.bind_eq_bind, Option.bind_some] at heq3
  dsimp only [Option.bind] at heq3
  have heq4 := headerPhase_blank sC m3
    ((([] ++ hs) ++ ctPairs) ++ [(wCONTENT_LENGTH, natToDec buf.length)])
    ((buf.length : Int)) [] (buf ++ 13 :: 10 :: 13 :: 10 :: []) hC2 hC1
    (by omega)
  have hloop : headerPhase
      (parseFuel (s1.readline none).2 (s1.readline none).1) s1 [] 0 []
      = some (((([] ++ hs) ++ ctPairs) ++
          [(wCONTENT_LENGTH, natToDec buf.length)]), (buf.length : Int), [],
          ⟨⟨buf ++ 13 :: 10 :: 13 :: 10 :: [], sC.fh.told + 2⟩, none⟩) := by
    rw [heq1, heq2, heq3, heq4]
  refine ⟨⟨⟨buf ++ 13 :: 10 :: 13 :: 10 :: [], sC.fh.told + 2⟩,
    some (buf.length : Int)⟩, ?_, rfl, rfl⟩
  rw [warcParse]
  dsimp only [firstLine]
  rw [hs1]
  rw [seekVersion_found _ _ _ offset [] ⟨[], version, num, [13, 10]⟩
    (by simp) hvm (by rw [parseFuel]; omega)]
  dsimp only
  rw [if_pos rfl, if_pos hknown, if_pos rfl]
  rw [show headerLoop (parseFuel (s1.readline none).2 (s1.readline none).1)
      (s1.readline none).2 (s1.readline none).1 [] 0 [] =
      some ((([] ++ hs) ++ ctPairs) ++ [(wCONTENT_LENGTH, natToDec buf.length)],
        ((buf.length : Int)), [],
        ⟨⟨buf ++ 13 :: 10 :: 13 :: 10 :: [], sC.fh.told + 2⟩, none⟩) from hloop]
  dsimp only
  cases offset <;> simp

/-- C1.  Writing a well-formed resolved record with `write_to` and parsing
the written bytes back with `WarcParser.parse` yields a record with no
errors, the same version line, the original headers in their original
order followed by the writer-regenerated content headers, the same content
bytes on resolution, and the same declared type, url and date. -/
theorem warc_roundtrip (r : WRecord) (offset : Option Nat) (wb : Bytes)
    (hwf : WfResolvedRecord r) (hwb : warcWriteTo r = some wb) :
    ∃ rec s2,
      warcParse (mkStream wb) offset none = some (⟨some rec, [], offset⟩, s2) ∧
      rec.version = r.version ∧ rec.errors = [] ∧
      rec.headers = r.headers ++ ctHeadersOf r ∧
      (rec.resolveContent s2).1.2 = some (contentBufOf r) ∧
      rec.typeH = r.typeH ∧ rec.urlH = r.urlH ∧ rec.dateH = r.dateH := by
  obtain ⟨hver, hplain, cpair, hcontent, hctgood⟩ := hwf
  obtain ⟨ct, cb⟩ := cpair
  obtain ⟨hvl, num, hvm, hknown⟩ := version_line_facts r.version hver
  have hmapline : (List.map
      (fun kv : Bytes × Bytes => kv.1 ++ 58 :: 32 :: (kv.2 ++ [13, 10]))
      r.headers).flatten = (List.map hline r.headers).flatten := by
    congr 1
    apply List.map_congr_left
    intro kv _
    simp [hline, nlCRLF]
  obtain ⟨ctPairs, hok, hcthdrs, hwb2⟩ :
      ∃ ctPairs, (ctPairs = [] ∨ ∃ t, ctPairs = [(wCONTENT_TYPE, t)] ∧
          t ≠ [] ∧ goodValueB t = true) ∧
        ctHeadersOf r = ctPairs ++
          [(wCONTENT_LENGTH, natToDec (cb.getD []).length)] ∧
        wb = (r.version ++ [13, 10]) ++ (hlBytes r.headers ++
          (hlBytes ctPairs ++
            (hline (wCONTENT_LENGTH, natToDec (cb.getD []).length) ++
              (13 :: 10 :: ((cb.getD []) ++ 13 :: 10 :: 13 :: 10 :: []))))) := by
    rw [warcWriteTo, hcontent] at hwb
    dsimp only at hwb
    injection hwb with hwb
    rw [filter_plain_headers r.headers hplain] at hwb
    rcases ct with _ | t
    · refine ⟨[], Or.inl rfl, by simp [ctHeadersOf, hcontent], ?_⟩
      rw [← hwb]
      simp [hlBytes, hline, nlCRLF, List.append_assoc]
      exact hmapline
    · by_cases ht : t = []
      · refine ⟨[], Or.inl rfl, by simp [ctHeadersOf, hcontent, ht], ?_⟩
        rw [← hwb]
        simp [hlBytes, hline, nlCRLF, List.append_assoc, ht]
        exact hmapline
      · refine ⟨[(wCONTENT_TYPE, t)],
          Or.inr ⟨t, rfl, ht, hctgood t rfl ht⟩,
          by simp [ctHeadersOf, hcontent, ht], ?_⟩
        rw [← hwb]
        simp [hlBytes, hline, nlCRLF, List.append_assoc, ht]
        exact hmapline
  obtain ⟨s2, hparse, hs2eoc, hs2rest⟩ :=
    roundtrip_aux r.version r.headers ctPairs (cb.getD []) offset hvl num
      hvm hknown hplain hok
  have hnames : ∀ kv ∈ ctPairs ++
      [(wCONTENT_LENGTH, natToDec (cb.getD []).length)],
      kv.1 = wCONTENT_TYPE ∨ kv.1 = wCONTENT_LENGTH := by
    intro kv hkv
    rw [List.mem_append] at hkv
    rcases hkv with hkv | hkv
    · rcases hok with hc | ⟨t, hc, _, _⟩ <;> subst hc
      · simp at hkv
      · simp only [List.mem_singleton] at hkv
        subst hkv
        exact Or.inl rfl
    · simp only [List.mem_singleton] at hkv
      subst hkv
      exact Or.inr rfl
  have hext : ∀ name : Bytes,
      lowerBytes name ≠ lowerBytes wCONTENT_TYPE →
      lowerBytes name ≠ lowerBytes wCONTENT_LENGTH →
      getHeaderIn (ctPairs ++
        [(wCONTENT_LENGTH, natToDec (cb.getD []).length)]) name = none := by
    intro name h1 h2
    apply getHeaderIn_none_of
    intro kv hkv
    rcases hnames kv hkv with h | h <;> rw [h]
    · exact h1
    · exact h2
  refine ⟨⟨r.version, r.headers ++
      (ctPairs ++ [(wCONTENT_LENGTH, natToDec (cb.getD []).length)]),
      none, []⟩, s2, ?_, rfl, rfl, ?_, ?_, ?_, ?_, ?_⟩
  · rw [hwb2]
    exact hparse
  · show r.headers ++ _ = r.headers ++ ctHeadersOf r
    rw [hcthdrs]
  · show (WRecord.resolveContent _ s2).1.2 = some (contentBufOf r)
    have hread : (s2.read none).1 = cb.getD [] :=
      read_exact s2 (cb.getD []) (13 :: 10 :: 13 :: 10 :: []) hs2eoc hs2rest
    have hbufc : contentBufOf r = cb.getD [] := by
      simp [contentBufOf, hcontent]
    rw [hbufc]
    simp only [WRecord.resolveContent]
    rw [hread]
  · show getHeaderIn (r.headers ++ _) wTYPE = getHeaderIn r.headers wTYPE
    exact getHeaderIn_skip _ _ _ (hext wTYPE (by decide) (by decide))
  · show getHeaderIn (r.headers ++ _) wURL = getHeaderIn r.headers wURL
    exact getHeaderIn_skip _ _ _ (hext wURL (by decide) (by decide))
  · show getHeaderIn (r.headers ++ _) wDATE = getHeaderIn r.headers wDATE
    exact getHeaderIn_skip _ _ _ (hext wDATE (by decide) (by decide))

/-- Witness for C1 at a concrete one-header record with content
`text/html` / `hello`. -/
theorem warc_roundtrip_witness :
    (WfResolvedRecord ⟨VERSION10, [(bs "WARC-Type", bs "resource")],
        some (some (bs "text/html"), some (bs "hello")), []⟩ ∧
      warcWriteTo ⟨VERSION10, [(bs "WARC-Type", bs "resource")],
          some (some (bs "text/html"), some (bs "hello")), []⟩
        = some (bs "WARC/1.0\r\nWARC-Type: resource\r\nContent-Type: text/html\r\nContent-Length: 5\r\n\r\nhello\r\n\r\n")) ∧
    (∃ rec s2,
      warcParse (mkStream (bs "WARC/1.0\r\nWARC-Type: resource\r\nContent-Type: text/html\r\nContent-Length: 5\r\n\r\nhello\r\n\r\n"))
          (some 0) none = some (⟨some rec, [], some 0⟩, s2) ∧
      rec.version = (⟨VERSION10, [(bs "WARC-Type", bs "resource")],
        some (some (bs "text/html"), some (bs "hello")), []⟩ : WRecord).version ∧
      rec.errors = [] ∧
      rec.headers = (⟨VERSION10, [(bs "WARC-Type", bs "resource")],
          some (some (bs "text/html"), some (bs "hello")), []⟩ : WRecord).headers
        ++ ctHeadersOf ⟨VERSION10, [(bs "WARC-Type", bs "resource")],
          some (some (bs "text/html"), some (bs "hello")), []⟩ ∧
      (rec.resolveContent s2).1.2
        = some (contentBufOf ⟨VERSION10, [(bs "WARC-Type", bs "resource")],
            some (some (bs "text/html"), some (bs "hello")), []⟩) ∧
      rec.typeH = (⟨VERSION10, [(bs "WARC-Type", bs "resource")],
        some (some (bs "text/html"), some (bs "hello")), []⟩ : WRecord).typeH ∧
      rec.urlH = (⟨VERSION10, [(bs "WARC-Type", bs "resource")],
        some (some (bs "text/html"), some (bs "hello")), []⟩ : WRecord).urlH ∧
      rec.dateH = (⟨VERSION10, [(bs "WARC-Type", bs "resource")],
        some (some (bs "text/html"), some (bs "hello")), []⟩ : WRecord).dateH) :=
  ⟨⟨⟨Or.inl rfl, by decide,
      ⟨(some (bs "text/html"), some (bs "hello")), rfl,
        fun t ht hne => by
          injection ht with h
          rw [← h]
          decide⟩⟩, by decide⟩,
    warc_roundtrip
      ⟨VERSION10, [(bs "WARC-Type", bs "resource")],
        some (some (bs "text/html"), some (bs "hello")), []⟩
      (some 0)
      (bs "WARC/1.0\r\nWARC-Type: resource\r\nContent-Type: text/html\r\nContent-Length: 5\r\n\r\nhello\r\n\r\n")
      ⟨Or.inl rfl, by decide,
        ⟨(some (bs "text/html"), some (bs "hello")), rfl,
          fun t ht hne => by
            injection ht with h
            rw [← h]
            decide⟩⟩
      (by decide)⟩

end Warctools
